import Mathlib

/-!
Shallow embedding of `src/architect.js` (node-architect): a dependency-driven
service activation scheduler.  JavaScript objects used as string-keyed maps are
embedded as insertion-ordered association lists; arrays as lists; the
single-settlement promise of a run as an `Option (Except Err ResolvedMap)`
field that is written at most once; the JS event loop (promise `.then`
callbacks and timers) as an explicit queue of pending completions plus a set
of armed timers, driven either by a deterministic FIFO step function (exact
for synchronous-module runs) or by a nondeterministic step relation (covering
arbitrary completion orders and timer races).

Service implementations ("modules") are denoted by the effect they have when
invoked: the sequence of registry operations their body performs plus their
produced outcome (a plain value, a deferred value, or a synchronous throw).
-/

namespace Architect

/-- Outcome value produced by a service module: either a bare string instance
or an object instance carrying an optional shutdown action (identified by a
name; the action's behaviour is external). -/
inductive Value where
  | str (s : String)
  | obj (tag : String) (teardownId : Option String)
deriving DecidableEq, Repr

/-- The `service.shutdown` property read by `register`: objects may carry a
teardown action, bare values have none. -/
def Value.shutdownAction : Value → Option String
  | .str _ => none
  | .obj _ sd => sd

/-- The `{}` default used by `register` when a module produced a falsy value. -/
def Value.emptyObj : Value := .obj "" none

/-- A service's `dependencies` container: a JS array of service names, or a JS
object mapping alias → service name (kept in insertion order). -/
inductive Deps where
  | list (names : List String)
  | map (entries : List (String × String))
deriving DecidableEq, Repr

/-- Every error the scheduler can raise or settle the run with, keyed by the
distinct `Error` messages of `architect.js`. -/
inductive Err where
  | duplicateService (name : String)
  | addAfterStarted (name : String)
  | unknownService (name : String)
  | alreadyStarting (name : String)
  | notDependent (name : String)
  | reservedName (name : String)
  | circularDependency (names : List String)
  | ignoredDependency (dep name : String)
  | unknownDependency (dep name : String)
  | moduleLoad (name : String) (cause : String)
  | startupError (name : String)
  | startupTimedOut (name : String)
  | executedTwice
  | notStarted
  | shutdownTimedOut
deriving DecidableEq, Repr

/-- Result of a module invocation `serviceModule(options, imports)`: a plain
(non-thenable) return value, a thenable that later fulfills or rejects, or a
synchronous throw.  `none` stands for a falsy produced value. -/
inductive ModResult where
  | value (v : Option Value)
  | promise (r : Except String (Option Value))
  | throws (e : String)
deriving Repr

mutual

/-- One declared service (`ServiceSpec`): dependency container, ignore flag,
preloaded module (`service.module`) and the loader's behaviour for
`service.path` when no preloaded module is present. -/
inductive Spec where
  | mk (dependencies : Option Deps) (ignore : Bool) (module : Option ModuleFn)
       (load : LoadResult)

/-- What `requireDefault(service.path)` does for this service: return a
callable module, return a falsy value, or throw with the given cause. -/
inductive LoadResult where
  | ok (m : ModuleFn)
  | nothing
  | throws (cause : String)

/-- A callable service implementation, denoted by the registry operations its
body performs when invoked and by its produced outcome. -/
inductive ModuleFn where
  | mk (effects : List RegOp) (result : ModResult)

/-- A registry mutation a running module may perform through the `__app__`
handle. -/
inductive RegOp where
  | addService (name : String) (spec : Spec)
  | addDependency (name dependency : String) (aliasName : Option String)

end

def Spec.dependencies : Spec → Option Deps
  | .mk d _ _ _ => d

def Spec.ignore : Spec → Bool
  | .mk _ i _ _ => i

def Spec.module : Spec → Option ModuleFn
  | .mk _ _ m _ => m

def Spec.load : Spec → LoadResult
  | .mk _ _ _ l => l

/-- Replace the dependency container (used by `addDependency`). -/
def Spec.withDependencies : Spec → Option Deps → Spec
  | .mk _ i m l, d => .mk d i m l

def ModuleFn.effects : ModuleFn → List RegOp
  | .mk e _ => e

def ModuleFn.result : ModuleFn → ModResult
  | .mk _ r => r

/-- A settled or still-pending completion of one activation, i.e. the
argument the promise chain in `register` eventually observes. -/
inductive Completion where
  | ok (v : Option Value)
  | err (e : String)
deriving DecidableEq, Repr

/-- Keys of a JS object embedded as an association list. -/
def keys {α : Type} (l : List (String × α)) : List String := l.map Prod.fst

/-- `name in object`. -/
def hasKey {α : Type} (l : List (String × α)) (n : String) : Bool :=
  (l.lookup n).isSome

/-- Assignment `object[k] = v`: an existing key keeps its position and gets the
new value, a new key is appended. -/
def objSet {α : Type} (l : List (String × α)) (k : String) (v : α) :
    List (String × α) :=
  if hasKey l k then l.map (fun p => if p.1 = k then (k, v) else p)
  else l ++ [(k, v)]

/-- Assignment `object[k] = truthy` on an object used as a set of names. -/
def keyInsert (l : List String) (n : String) : List String :=
  if n ∈ l then l else l ++ [n]

/-- `array.splice(array.indexOf(n), 1)`: removes the first occurrence of `n`;
when `n` is absent, `indexOf` is `-1` and `splice(-1, 1)` removes the last
element. -/
def spliceOut (l : List String) (n : String) : List String :=
  if n ∈ l then l.erase n else l.dropLast

/-- JS string truthiness of an optional alias: present and nonempty. -/
def strTruthy : Option String → Bool
  | none => false
  | some s => s ≠ ""

/-- `value || default` on an optional numeric config entry (`0` is falsy). -/
def orDefault : Option Nat → Nat → Nat
  | none, d => d
  | some t, d => if t = 0 then d else t

/-- Decidable equality of run outcomes. -/
instance {ε α : Type} [DecidableEq ε] [DecidableEq α] : DecidableEq (Except ε α) :=
  fun x y =>
    match x, y with
    | .ok a, .ok b =>
      if h : a = b then .isTrue (by rw [h]) else .isFalse (by simp [h])
    | .ok _, .error _ => .isFalse (by simp)
    | .error _, .ok _ => .isFalse (by simp)
    | .error e, .error f =>
      if h : e = f then .isTrue (by rw [h]) else .isFalse (by simp [h])

/-- The mapping from service name to produced instance that a successful run
resolves with. -/
abbrev ResolvedMap := List (String × Value)

/-- Full scheduler state: the `Architect` instance fields plus the event-loop
bookkeeping (`pending` completions of in-flight activations and armed
startup timers). `outcome` is the settlement of the promise returned by
`execute`. -/
structure St where
  services : List (String × Spec)
  startupTimeout : Nat
  shutdownTimeout : Nat
  ignored : List String
  starting : List String
  resolved : ResolvedMap
  teardown : List (String × Option String)
  outcome : Option (Except Err ResolvedMap)
  started : Bool
  executed : Bool
  awaiting : List String
  pending : List (String × Completion)
  timers : List String

/-- Constructor-time configuration (`config.services`, the two timeouts). -/
structure Config where
  services : List (String × Spec)
  startup_timeout : Option Nat := none
  shutdown_timeout : Option Nat := none

/-- The `Architect` constructor: services copied from the config, timeouts
defaulted, bookkeeping empty, `awaiting = Object.keys(services)`. -/
def init (config : Config) : St :=
  { services := config.services
    startupTimeout := orDefault config.startup_timeout 5000
    shutdownTimeout := orDefault config.shutdown_timeout 5000
    ignored := []
    starting := []
    resolved := []
    teardown := []
    outcome := none
    started := false
    executed := false
    awaiting := keys config.services
    pending := []
    timers := [] }

/-- `this.promise.resolve(this.resolved)`: settles the run successfully; a
later call on an already settled promise is silently dropped. -/
def resolveOutcome (st : St) : St :=
  if st.outcome.isSome then st else { st with outcome := some (.ok st.resolved) }

/-- `this.promise.reject(error)`: settles the run with a failure; a later call
on an already settled promise is silently dropped. -/
def rejectOutcome (st : St) (e : Err) : St :=
  if st.outcome.isSome then st else { st with outcome := some (.error e) }

/-- `makeDictionary(array)`: object with each array entry as both key and
value. -/
def makeDictionary (array : List String) : List (String × String) :=
  array.foldl (fun d name => objSet d name name) []

/-- `addService(name, spec)`: throws when the name already exists or the
application fully started; otherwise inserts the spec and appends the name to
`awaiting`. -/
def addService (st : St) (name : String) (spec : Spec) : Except Err St :=
  if hasKey st.services name then .error (.duplicateService name)
  else if st.started then .error (.addAfterStarted name)
  else .ok { st with services := objSet st.services name spec
                     awaiting := st.awaiting ++ [name] }

/-- `addDependency(name, dependency, alias)`: throws for an undeclared
service, a currently starting service, or a service without a dependency
container; converts a list container to a dictionary when an alias is
supplied; then appends the dependency. -/
def addDependencyDeps (deps : Deps) (dependency : String)
    (aliasName : Option String) : Deps :=
  match (match deps with
         | .list names =>
           if strTruthy aliasName then Deps.map (makeDictionary names)
           else .list names
         | d => d) with
  | .list names => Deps.list (names ++ [dependency])
  | .map entries =>
    Deps.map (objSet entries
      (if strTruthy aliasName then aliasName.getD dependency else dependency)
      dependency)

def addDependency (st : St) (name dependency : String)
    (aliasName : Option String) : Except Err St :=
  if ¬ hasKey st.services name then .error (.unknownService name)
  else if name ∈ st.starting then .error (.alreadyStarting name)
  else
    match st.services.lookup name with
    | none => .error (.unknownService name)
    | some spec =>
      match spec.dependencies with
      | none => .error (.notDependent name)
      | some deps =>
        .ok { st with services :=
          st.services.map (fun p =>
            if p.1 = name then
              (p.1, p.2.withDependencies
                (some (addDependencyDeps deps dependency aliasName)))
            else p) }

/-- Interpretation of one registry operation performed by a running module
through its `__app__` handle. -/
def applyOp (st : St) : RegOp → Except Err St
  | .addService name spec => addService st name spec
  | .addDependency name dependency aliasName =>
    addDependency st name dependency aliasName

/-- Run a module body's registry operations in order.  A throwing operation
leaves the state as mutated so far and surfaces the thrown error (which the
caller's `try`/`catch` turns into a startup failure). -/
def applyOps : St → List RegOp → St × Option Err
  | st, [] => (st, none)
  | st, op :: rest =>
    match applyOp st op with
    | .ok st' => applyOps st' rest
    | .error e => (st, some e)

/-- `getDependencyNames(service)`: the array itself, or `values(object)` for a
dictionary container. -/
def getDependencyNames (spec : Spec) : List String :=
  match spec.dependencies with
  | none => []
  | some (.list names) => names
  | some (.map entries) => entries.map Prod.snd

/-- One `forEach` body of `checkDependencies`: clear the readiness flag for an
unresolved dependency, then attempt the two fatal rejections (ignored
dependency first, unknown dependency second). -/
def checkDep1 (name : String) (acc : Bool × St) (dependency : String) :
    Bool × St :=
  let r := if hasKey acc.2.resolved dependency then acc.1 else false
  let st := acc.2
  let st :=
    if dependency ∈ st.ignored then
      rejectOutcome st (.ignoredDependency dependency name)
    else st
  let st :=
    if ¬ hasKey st.services dependency then
      rejectOutcome st (.unknownDependency dependency name)
    else st
  (r, st)

/-- `checkDependencies(name, service)`: true immediately for a missing or
empty-array container; otherwise folds `checkDep1` over the declared
dependency names. -/
def checkDependencies (st : St) (name : String) (spec : Spec) : Bool × St :=
  match spec.dependencies with
  | none => (true, st)
  | some (.list []) => (true, st)
  | some _ => (getDependencyNames spec).foldl (checkDep1 name) (true, st)

/-- `obtainModule(name, service)`: the preloaded `service.module`, or the
loader's result for `service.path`; a loader throw rejects the run with the
module-load error and yields no module, a falsy loader result yields no
module silently. -/
def obtainModule (st : St) (name : String) (spec : Spec) :
    Option ModuleFn × St :=
  match spec.module with
  | some m => (some m, st)
  | none =>
    match spec.load with
    | .ok m => (some m, st)
    | .nothing => (none, st)
    | .throws cause => (none, rejectOutcome st (.moduleLoad name cause))

/-- `obtainDepenedcies(name, service)` builds the import map handed to the
module: the `__app__` registry handle plus each dependency's resolved
instance under its declared name or alias. -/
def obtainDepenedcies (st : St) (spec : Spec) : List (String × Option Value) :=
  match spec.dependencies with
  | none => []
  | some (.list names) => names.map (fun n => (n, st.resolved.lookup n))
  | some (.map entries) =>
    entries.map (fun p => (p.1, st.resolved.lookup p.2))

/-- `register(name, timer, module)`: schedule the promise chain that will
deliver the module's outcome — a pending completion in this embedding. -/
def register (st : St) (name : String) : ModResult → St
  | .throws _ => rejectOutcome st (.startupError name)
  | .value v => { st with pending := st.pending ++ [(name, .ok v)] }
  | .promise (.ok v) => { st with pending := st.pending ++ [(name, .ok v)] }
  | .promise (.error e) => { st with pending := st.pending ++ [(name, .err e)] }

/-- The part of `startService` that runs once a module was obtained: mark the
service starting, splice it out of `awaiting`, arm its startup timer, invoke
the module body (its registry effects run now), and either reject the run on
a synchronous throw or hand the produced outcome to `register`. -/
def invokeService (st : St) (name : String) (m : ModuleFn) : St :=
  match applyOps { st with starting := keyInsert st.starting name
                           awaiting := spliceOut st.awaiting name
                           timers := st.timers ++ [name] } m.effects with
  | (st, some _) => rejectOutcome st (.startupError name)
  | (st, none) => register st name m.result

/-- `startService(name, service)`: obtain the module, returning early when
there is none, then hand over to the invocation step. -/
def startService (st : St) (name : String) (spec : Spec) : St :=
  match obtainModule st name spec with
  | (none, st) => st
  | (some m, st) => invokeService st name m

mutual

/-- An upper bound on the number of registry operations reachable from a
spec's module (used to bound the scan loop of a round, whose iteration count
can grow when started modules add services mid-round). -/
def specPotential : Spec → Nat
  | .mk _ _ m l => modOptPotential m + loadPotential l

def modOptPotential : Option ModuleFn → Nat
  | none => 0
  | some m => modPotential m

def modPotential : ModuleFn → Nat
  | .mk effs _ => opsPotential effs

def opsPotential : List RegOp → Nat
  | [] => 0
  | op :: rest => opPotential op + opsPotential rest

def opPotential : RegOp → Nat
  | .addService _ s => 1 + specPotential s
  | .addDependency _ _ _ => 1

def loadPotential : LoadResult → Nat
  | .ok m => modPotential m
  | .nothing => 0
  | .throws _ => 0

end

def servicesPotential : List (String × Spec) → Nat
  | [] => 0
  | (_, s) :: rest => specPotential s + servicesPotential rest

/-- Fuel that always outlasts the `for` loop of one round: the loop advances
its index once per iteration, and the `awaiting` array can grow only by
`addService` effects of modules started in this very round. -/
def roundFuel (st : St) : Nat :=
  st.awaiting.length + servicesPotential st.services + 1

/-- The `for` loop of `nextRound`: scan `awaiting` by index (the array is
live: started services splice themselves out and effects may append), start
every service whose dependencies check out, and count the starts. -/
def roundLoop : St → Nat → Nat → Nat → St × Nat
  | st, _, startedCount, 0 => (st, startedCount)
  | st, i, startedCount, fuel + 1 =>
    if h : i < st.awaiting.length then
      match st.services.lookup (st.awaiting.get ⟨i, h⟩) with
      | none => roundLoop st (i + 1) startedCount fuel
      | some spec =>
        if (checkDependencies st (st.awaiting.get ⟨i, h⟩) spec).1 then
          roundLoop
            (startService (checkDependencies st (st.awaiting.get ⟨i, h⟩) spec).2
              (st.awaiting.get ⟨i, h⟩) spec)
            (i + 1) (startedCount + 1) fuel
        else
          roundLoop (checkDependencies st (st.awaiting.get ⟨i, h⟩) spec).2
            (i + 1) startedCount fuel
    else (st, startedCount)

/-- `nextRound()`: run the scan loop, then settle the run successfully when
nothing remains awaiting or starting, or reject with the circular-dependency
deadlock error when the round started nothing and nothing is mid-flight. -/
def nextRound (st : St) : St :=
  if (roundLoop st 0 0 (roundFuel st)).1.awaiting = [] ∧
     (roundLoop st 0 0 (roundFuel st)).1.starting = [] then
    resolveOutcome { (roundLoop st 0 0 (roundFuel st)).1 with started := true }
  else if (roundLoop st 0 0 (roundFuel st)).2 = 0 ∧
      (roundLoop st 0 0 (roundFuel st)).1.starting = [] then
    rejectOutcome (roundLoop st 0 0 (roundFuel st)).1
      (.circularDependency (roundLoop st 0 0 (roundFuel st)).1.awaiting)
  else (roundLoop st 0 0 (roundFuel st)).1

/-- The `.then` branch of `register` (for a fulfilled activation: clear the
startup timer, leave `starting`, record the resolved instance and its
teardown action, trigger the next round) and its `.catch` branch (for a
rejected activation: reject the run, leaving the timer armed). -/
def processCompletion (st : St) (name : String) : Completion → St
  | .err _ => rejectOutcome st (.startupError name)
  | .ok v =>
    let value := v.getD Value.emptyObj
    nextRound { st with
      timers := st.timers.erase name
      starting := st.starting.erase name
      resolved := objSet st.resolved name value
      teardown := objSet st.teardown name value.shutdownAction }

/-- `fillIgnored()`: collect every awaiting service flagged `ignore`. -/
def fillIgnored (st : St) : St :=
  { st with ignored := st.awaiting.foldl (fun ign name =>
      match st.services.lookup name with
      | some spec => if spec.ignore then keyInsert ign name else ign
      | none => ign) st.ignored }

/-- `cleanAwaiting()`: splice every ignored name out of `awaiting`. -/
def cleanAwaiting (st : St) : St :=
  { st with awaiting := st.ignored.foldl spliceOut st.awaiting }

/-- `checkNameConstraints(names)`: the first reserved module-loading
identifier among the given names, as the error `execute` would throw. -/
def checkNameConstraints (names : List String) : Option Err :=
  names.findSome? fun name =>
    if name = "require" then some (.reservedName name)
    else if name = "requireDefault" then some (.reservedName name)
    else none

/-- `checkConstraints()`: reserved-name check over the awaiting service names
and then over each awaiting service's dependency names. -/
def checkConstraints (st : St) : Option Err :=
  match checkNameConstraints st.awaiting with
  | some e => some e
  | none =>
    st.awaiting.findSome? fun name =>
      match st.services.lookup name with
      | none => none
      | some spec => checkNameConstraints (getDependencyNames spec)

/-- What a call to `execute()` does: throw synchronously on a second call,
return an already-rejected promise on a constraint violation (leaving the
instance unmarked), or mark the instance executed and run the first round
with a fresh pending promise. -/
inductive ExecuteResult where
  | threw (e : Err)
  | rejected (e : Err) (st : St)
  | running (st : St)

def execute (st : St) : ExecuteResult :=
  if st.executed then .threw .executedTwice
  else
    match checkConstraints st with
    | some e => .rejected e st
    | none =>
      let st := cleanAwaiting (fillIgnored st)
      .running (nextRound { st with executed := true })

/-- The names whose teardown actions `shutdown()` invokes, in its `for`/`in`
iteration order (the insertion order of `teardown`, i.e. resolution order). -/
def shutdownOrder (st : St) : List String := keys st.teardown

/-- Whether one recorded teardown action settles successfully within the
given timeout (a missing action is the recorded no-op). -/
def teardownCompletesWithin (timeout : Nat) (dur : String → Nat)
    (ok : String → Bool) : Option String → Bool
  | none => true
  | some id => ok id && decide (dur id < timeout)

/-- Outcome of `shutdown()` in the non-racy cases, given each teardown
action's duration and success: a throw before full start; success when every
action fulfills before the global shutdown timer; the timeout rejection when
every action fulfills but not all in time. -/
def shutdownResult (st : St) (dur : String → Nat) (ok : String → Bool) :
    Except Err Unit :=
  if ¬ st.started then .error .notStarted
  else if (st.teardown.map Prod.snd).all
      (teardownCompletesWithin st.shutdownTimeout dur ok) then .ok ()
  else .error .shutdownTimedOut

/-- The deterministic event loop: run the oldest pending completion (exactly
the JS microtask order for synchronous-module runs, where armed startup
timers can never fire before the already-queued completions). -/
def stepEventLoop (st : St) : St :=
  match st.pending with
  | [] => st
  | (name, c) :: rest => processCompletion { st with pending := rest } name c

/-- Iterate the deterministic event loop. -/
def runSteps (st : St) : Nat → St
  | 0 => st
  | k + 1 => runSteps (stepEventLoop st) k

/-- A state with its outcome field replaced (the only field the settlement
attempts touch). -/
def withOutcome (st : St) (o : Option (Except Err ResolvedMap)) : St :=
  { st with outcome := o }

/-- The dependency-readiness value that the scan of a round computes for a
service: every declared dependency already has an entry in `resolved`. -/
def depsResolved (st : St) (spec : Spec) : Bool :=
  (getDependencyNames spec).all (hasKey st.resolved)

/-- The first run-fatal condition the dependency scan hits in a given list of
dependency names, in evaluation order: for each name, the ignored-dependency
rejection is attempted before the unknown-dependency rejection. -/
def firstFatalL (st : St) (name : String) (ds : List String) : Option Err :=
  ds.findSome? fun d =>
    if d ∈ st.ignored then some (.ignoredDependency d name)
    else if ¬ hasKey st.services d then some (.unknownDependency d name)
    else none

/-- The first run-fatal condition `checkDependencies` hits for a service. -/
def firstFatal (st : St) (name : String) (spec : Spec) : Option Err :=
  firstFatalL st name (getDependencyNames spec)

/-- A module that performs no registry operations and produces a plain value
synchronously. -/
def ModuleFn.isBenignSync : ModuleFn → Bool
  | .mk [] (.value _) => true
  | _ => false

/-- A spec whose preloaded module is benign and synchronous. -/
def Spec.benignModule : Spec → Bool := fun s =>
  match s.module with
  | some m => m.isBenignSync
  | none => false

/-- Every declared service carries a benign synchronous module. -/
def benignServices (services : List (String × Spec)) : Bool :=
  services.all (fun p => p.2.benignModule)

/-- The plain value a benign module produces (the completion `register` will
observe for it). -/
def benignValue (services : List (String × Spec)) (n : String) : Option Value :=
  match services.lookup n with
  | some (.mk _ _ (some (.mk _ (.value v))) _) => v
  | _ => none

/-- Names of the services flagged `ignore`, in declaration order. -/
def ignoredNames (services : List (String × Spec)) : List String :=
  (services.filter (fun p => p.2.ignore)).map Prod.fst

/-- Names of the services not flagged `ignore`, in declaration order. -/
def nonIgnoredNames (services : List (String × Spec)) : List String :=
  (services.filter (fun p => ¬ p.2.ignore)).map Prod.fst

/-- Every dependency of every non-ignored service names a declared,
non-ignored service. -/
def refsOkServices (services : List (String × Spec)) : Bool :=
  services.all (fun p =>
    p.2.ignore ||
    (getDependencyNames p.2).all (fun d =>
      match services.lookup d with
      | some s => ¬ s.ignore
      | none => false))

/-- A witnessing rank function for acyclicity of the non-ignored dependency
graph: every declared dependency of a non-ignored service has strictly
smaller rank. -/
def RankOk (rank : String → Nat) (services : List (String × Spec)) : Prop :=
  ∀ p ∈ services, p.2.ignore = false →
    ∀ d ∈ getDependencyNames p.2, rank d < rank p.1

/-- One observable transition of a run: an in-flight activation's completion
is delivered (in any order — asynchronous completions race), an armed startup
timer fires, or a registry mutation is performed from outside the round (a
`setTimeout` callback of some module). -/
inductive EStep : St → St → Prop where
  | complete (st : St) (name : String) (c : Completion)
      (pre post : List (String × Completion)) :
      st.pending = pre ++ (name, c) :: post →
      EStep st (processCompletion { st with pending := pre ++ post } name c)
  | timerFire (st : St) (name : String) :
      name ∈ st.timers →
      EStep st (rejectOutcome { st with timers := st.timers.erase name }
        (.startupTimedOut name))
  | regAddService (st st' : St) (name : String) (spec : Spec) :
      addService st name spec = .ok st' → EStep st st'
  | regAddDependency (st st' : St) (name dependency : String)
      (aliasName : Option String) :
      addDependency st name dependency aliasName = .ok st' → EStep st st'

/-- Reachability along observable transitions. -/
def Reach : St → St → Prop := Relation.ReflTransGen EStep

/-- The registry bookkeeping invariant behind the spec's pairwise-disjointness
claim: the three tracking sets are duplicate-free name sets drawn from the
declared services, pairwise disjoint, and every pending completion belongs to
exactly one currently starting service. -/
structure Inv (st : St) : Prop where
  servNodup : (keys st.services).Nodup
  awaitSub : st.awaiting ⊆ keys st.services
  awaitNodup : st.awaiting.Nodup
  startSub : st.starting ⊆ keys st.services
  startNodup : st.starting.Nodup
  resSub : keys st.resolved ⊆ keys st.services
  resNodup : (keys st.resolved).Nodup
  dAS : ∀ n ∈ st.awaiting, n ∉ st.starting
  dAR : ∀ n ∈ st.awaiting, n ∉ keys st.resolved
  dSR : ∀ n ∈ st.starting, n ∉ keys st.resolved
  pendSub : ∀ p ∈ st.pending, p.1 ∈ st.starting
  pendNodup : (st.pending.map Prod.fst).Nodup

/-- Every service whose activation has been invoked (it is starting or
resolved) had all of its declared dependencies in `resolved` at invocation
time — and hence still has, since `resolved` only grows. -/
def depsBeforeStart (st : St) : Prop :=
  ∀ n, (n ∈ st.starting ∨ n ∈ keys st.resolved) →
    ∀ spec, st.services.lookup n = some spec →
      ∀ d ∈ getDependencyNames spec, d ∈ keys st.resolved

/-- The additional facts that hold along a run of a well-formed, benign
(synchronous modules, no effects), fully-referenced configuration while its
outcome is still pending. -/
structure GoodRun (st : St) : Prop where
  inv : Inv st
  benign : benignServices st.services = true
  refsOk : refsOkServices st.services = true
  ignEq : st.ignored = ignoredNames st.services
  awaitNotIgn : ∀ n ∈ st.awaiting, n ∉ st.ignored
  startNotIgn : ∀ n ∈ st.starting, n ∉ st.ignored
  resNotIgn : ∀ n ∈ keys st.resolved, n ∉ st.ignored
  conserve : ∀ n ∈ keys st.services, n ∉ st.ignored →
    n ∈ st.awaiting ∨ n ∈ st.starting ∨ n ∈ keys st.resolved
  pendPerm : (st.pending.map Prod.fst).Perm st.starting
  pendOk : ∀ p ∈ st.pending, ∃ v, p.2 = Completion.ok v
  pendVal : ∀ p ∈ st.pending, p.2 = Completion.ok (benignValue st.services p.1)
  orderInv : depsBeforeStart st
  outcomeNone : st.outcome = none

/-- The effect of one round's scan on the state, given the list of services it
started, in start order (benign synchronous modules). -/
def roundAdvance (st : St) (S : List String) : St :=
  { st with awaiting := S.foldl List.erase st.awaiting
            starting := st.starting ++ S
            timers := st.timers ++ S
            pending := st.pending ++
              S.map (fun n => (n, .ok (benignValue st.services n))) }

/-- Number of services not yet resolved (the strictly decreasing measure of
the benign run). -/
def measure (st : St) : Nat := st.awaiting.length + st.starting.length

/-- A synchronous module producing a bare string value, performing no registry
operation. -/
def syncMod (v : String) : ModuleFn := .mk [] (.value (some (.str v)))

/-- A synchronous module producing an object with a teardown action. -/
def objMod (t sd : String) : ModuleFn := .mk [] (.value (some (.obj t (some sd))))

/-- A spec with the given module, dependencies and ignore flag (no loader
path). -/
def specOf (m : ModuleFn) (deps : Option Deps := none) (ign : Bool := false) :
    Spec :=
  .mk deps ign (some m) .nothing

/-- The scheduler state on which `execute` runs its first round: ignored
services collected and spliced out, the instance marked executed. -/
def preRoundState (cfg : Config) : St :=
  { cleanAwaiting (fillIgnored (init cfg)) with executed := true }

/-- A mid-evaluation state for exercising the dependency scan: service `I` is
ignored, service `A` declares dependencies on `I` and on the undeclared `U`. -/
def stIgnCase : St :=
  { services := [("I", specOf (syncMod "x") none true),
                 ("A", specOf (syncMod "a") (some (.list ["I", "U"])))]
    startupTimeout := 5000
    shutdownTimeout := 5000
    ignored := ["I"]
    starting := []
    resolved := []
    teardown := []
    outcome := none
    started := false
    executed := true
    awaiting := ["A"]
    pending := []
    timers := [] }

/-- Convenience for concrete runs: the state after `execute` plus `k` turns of
the deterministic event loop (for a throwing or constraint-rejected call, the
state at that point). -/
def runToEnd (cfg : Config) (k : Nat) : St :=
  match execute (init cfg) with
  | .running st => runSteps st k
  | .rejected _ st => st
  | .threw _ => init cfg

/-- Scenario A of the spec: `serviceA` depends on `serviceB`. -/
def cfgA : Config :=
  { services :=
      [("serviceA", specOf (syncMod "moduleA") (some (.list ["serviceB"]))),
       ("serviceB", specOf (syncMod "moduleB"))] }

/-- Scenario B of the spec: the three-cycle `A→B→C→A`. -/
def cfgCycle : Config :=
  { services :=
      [("serviceA", specOf (syncMod "mA") (some (.list ["serviceB"]))),
       ("serviceB", specOf (syncMod "mB") (some (.list ["serviceC"]))),
       ("serviceC", specOf (syncMod "mC") (some (.list ["serviceA"])))] }

/-- A single service whose only declared dependency `M` does not exist. -/
def cfgMissing : Config :=
  { services := [("serviceA", specOf (syncMod "mA") (some (.list ["M"])))] }

/-- Scenario D of the spec: `A` dependency-free, `B` depends on `A`, both
with teardown actions. -/
def cfgD : Config :=
  { services := [("A", specOf (objMod "mA" "tdA")),
                 ("B", specOf (objMod "mB" "tdB") (some (.list ["A"])))] }

/-- A service whose module dynamically registers a service named `require`. -/
def cfgDynReserved : Config :=
  { services := [("A", .mk none false
      (some (.mk [.addService "require" (specOf (syncMod "mR"))]
                 (.value (some (.str "mA"))))) .nothing)] }

/-- A service using the reserved identifier `require` as a dependency alias
for an ordinary service `b`. -/
def cfgAliasReserved : Config :=
  { services := [("a", specOf (syncMod "ma") (some (.map [("require", "b")]))),
                 ("b", specOf (syncMod "mb"))] }

/-- A single service whose loader returns a falsy module without throwing. -/
def cfgLoadNothing : Config :=
  { services := [("A", .mk none false none .nothing)] }

/-- Three services where `B` depends on `A` (the repository's
`addDependency`-after-start test configuration). -/
def cfgStarted : Config :=
  { services := [("A", specOf (syncMod "mA")),
                 ("B", specOf (syncMod "mB") (some (.list ["A"]))),
                 ("C", specOf (syncMod "mC"))] }

/-- The fully started state of `cfgStarted` (its run settles within six event
loop steps). -/
def stStarted : St :=
  match execute (init cfgStarted) with
  | .running st => runSteps st 6
  | _ => init cfgStarted

/-- A service whose module dynamically registers a service flagged `ignore`. -/
def cfgDynIgnored : Config :=
  { services := [("A", .mk none false
      (some (.mk [.addService "B" (specOf (syncMod "mB") none true)]
                 (.value (some (.str "mA"))))) .nothing)] }

/-- A single service whose loader throws. -/
def cfgLoadThrows : Config :=
  { services := [("A", .mk none false none (.throws "boom"))] }

/-- A configuration declaring a service under the reserved name `require`. -/
def cfgInitReserved : Config :=
  { services := [("require", specOf (syncMod "m"))] }

/-- A spec flagged `ignore` used for dynamic registration. -/
def zSpec : Spec := specOf (syncMod "mZ") none true

/-- The state produced by dynamically adding `Z` (flagged ignore) right after
`execute` began on `cfgStarted`. -/
def stMidAdded : St :=
  match addService (runToEnd cfgStarted 0) "Z" zSpec with
  | .ok s => s
  | .error _ => runToEnd cfgStarted 0

/-- A settled state that still carries a late pending completion (the shape an
abandoned activation's eventual completion leaves behind). -/
def stLate : St :=
  { runToEnd cfgMissing 0 with
      pending := [("serviceA", Completion.ok (some (.str "x")))] }

/-! Association-list and bookkeeping helper lemmas. -/

theorem mem_keys_iff_lookup {α : Type} (l : List (String × α)) (n : String) :
    n ∈ keys l ↔ (l.lookup n).isSome := by
  induction l with
  | nil => simp [keys]
  | cons p rest ih =>
    cases p with
    | mk k v =>
      by_cases h : n = k
      · subst h; simp [keys, List.lookup]
      · have hb : (n == k) = false := beq_false_of_ne h
        simp only [keys, List.map_cons, List.mem_cons, List.lookup, hb]
        constructor
        · rintro (rfl | hm)
          · exact absurd rfl h
          · exact (ih.mp hm)
        · intro hs; exact Or.inr (ih.mpr hs)

theorem hasKey_iff {α : Type} (l : List (String × α)) (n : String) :
    hasKey l n = true ↔ n ∈ keys l := by
  rw [hasKey, mem_keys_iff_lookup]

theorem lookup_isSome_of_mem {α : Type} {l : List (String × α)} {n : String}
    (h : n ∈ keys l) : ∃ v, l.lookup n = some v := by
  rcases Option.isSome_iff_exists.mp ((mem_keys_iff_lookup l n).mp h) with ⟨v, hv⟩
  exact ⟨v, hv⟩

theorem keys_objSet_of_mem {α : Type} {l : List (String × α)} {k : String}
    (v : α) (h : k ∈ keys l) : keys (objSet l k v) = keys l := by
  rw [objSet, if_pos ((hasKey_iff l k).mpr h)]
  simp only [keys, List.map_map]
  apply List.map_congr_left
  intro p _
  by_cases hp : p.1 = k <;> simp [hp]

theorem keys_objSet_of_not_mem {α : Type} {l : List (String × α)} {k : String}
    (v : α) (h : k ∉ keys l) : keys (objSet l k v) = keys l ++ [k] := by
  rw [objSet, if_neg]
  · simp [keys]
  · intro hc; exact h ((hasKey_iff l k).mp hc)

theorem keys_update {α : Type} (l : List (String × α)) (name : String)
    (g : String × α → α) :
    keys (l.map (fun p => if p.1 = name then (p.1, g p) else p)) = keys l := by
  simp only [keys, List.map_map]
  apply List.map_congr_left
  intro p _
  by_cases hp : p.1 = name <;> simp [hp]

theorem spliceOut_sublist (l : List String) (n : String) :
    (spliceOut l n).Sublist l := by
  rw [spliceOut]
  by_cases h : n ∈ l
  · rw [if_pos h]; exact l.erase_sublist n
  · rw [if_neg h]; exact l.dropLast_sublist

theorem spliceOut_of_mem {l : List String} {n : String} (h : n ∈ l) :
    spliceOut l n = l.erase n := if_pos h

/-! Settlement helpers: every settlement attempt only rewrites `outcome`, and
an already settled outcome is never changed. -/

theorem withOutcome_services (st : St) (o) : (withOutcome st o).services = st.services := rfl

theorem withOutcome_awaiting (st : St) (o) : (withOutcome st o).awaiting = st.awaiting := rfl

theorem withOutcome_starting (st : St) (o) : (withOutcome st o).starting = st.starting := rfl

theorem withOutcome_resolved (st : St) (o) : (withOutcome st o).resolved = st.resolved := rfl

theorem withOutcome_ignored (st : St) (o) : (withOutcome st o).ignored = st.ignored := rfl

theorem withOutcome_pending (st : St) (o) : (withOutcome st o).pending = st.pending := rfl

theorem withOutcome_timers (st : St) (o) : (withOutcome st o).timers = st.timers := rfl

theorem withOutcome_teardown (st : St) (o) : (withOutcome st o).teardown = st.teardown := rfl

theorem withOutcome_outcome (st : St) (o) : (withOutcome st o).outcome = o := rfl

theorem withOutcome_self (st : St) : withOutcome st st.outcome = st := rfl

theorem rejectOutcome_eq_withOutcome (st : St) (e : Err) :
    rejectOutcome st e =
      withOutcome st (if st.outcome.isSome then st.outcome else some (.error e)) := by
  rw [rejectOutcome]
  by_cases h : st.outcome.isSome
  · rw [if_pos h, if_pos h, withOutcome_self]
  · rw [if_neg h, if_neg h]; rfl

theorem resolveOutcome_eq_withOutcome (st : St) :
    resolveOutcome st =
      withOutcome st (if st.outcome.isSome then st.outcome
                      else some (.ok st.resolved)) := by
  rw [resolveOutcome]
  by_cases h : st.outcome.isSome
  · rw [if_pos h, if_pos h, withOutcome_self]
  · rw [if_neg h, if_neg h]; rfl

theorem rejectOutcome_settled {st : St} {o} (h : st.outcome = some o) (e : Err) :
    (rejectOutcome st e).outcome = some o := by
  rw [rejectOutcome, if_pos (by rw [h]; rfl), h]

theorem resolveOutcome_settled {st : St} {o} (h : st.outcome = some o) :
    (resolveOutcome st).outcome = some o := by
  rw [resolveOutcome, if_pos (by rw [h]; rfl), h]

theorem rejectOutcome_of_none {st : St} (h : st.outcome = none) (e : Err) :
    (rejectOutcome st e).outcome = some (.error e) := by
  rw [rejectOutcome, if_neg (by rw [h]; exact Bool.false_ne_true)]

/-! Shape of the dependency scan: its boolean is pure readiness, its state
differs from the input only in the outcome, and the outcome it settles is the
first fatal condition in evaluation order. -/

theorem withOutcome_withOutcome (st : St) (o o') :
    withOutcome (withOutcome st o) o' = withOutcome st o' := rfl

theorem rejectOutcome_services (st : St) (e : Err) :
    (rejectOutcome st e).services = st.services := by
  rw [rejectOutcome]; split <;> rfl

theorem rejectOutcome_resolved (st : St) (e : Err) :
    (rejectOutcome st e).resolved = st.resolved := by
  rw [rejectOutcome]; split <;> rfl

theorem rejectOutcome_ignored (st : St) (e : Err) :
    (rejectOutcome st e).ignored = st.ignored := by
  rw [rejectOutcome]; split <;> rfl

theorem rejectOutcome_rejectOutcome (st : St) (e e' : Err) :
    rejectOutcome (rejectOutcome st e) e' = rejectOutcome st e := by
  by_cases h : st.outcome.isSome
  · have h1 : rejectOutcome st e = st := by rw [rejectOutcome, if_pos h]
    rw [h1, rejectOutcome, if_pos h]
  · have h1 : rejectOutcome st e = { st with outcome := some (.error e) } := by
      rw [rejectOutcome, if_neg h]
    rw [h1, rejectOutcome]
    simp

theorem checkDep1_eq (name : String) (b : Bool) (st : St) (d : String) :
    checkDep1 name (b, st) d =
      (b && hasKey st.resolved d,
       if d ∈ st.ignored then rejectOutcome st (.ignoredDependency d name)
       else if ¬ hasKey st.services d then
         rejectOutcome st (.unknownDependency d name)
       else st) := by
  rw [checkDep1]
  have hfst : (if hasKey st.resolved d then b else false) = (b && hasKey st.resolved d) := by
    by_cases hr : hasKey st.resolved d <;> simp [hr]
  by_cases hi : d ∈ st.ignored
  · simp only [hfst, if_pos hi, rejectOutcome_services]
    by_cases hu : hasKey st.services d
    · simp [hu]
    · simp [hu, rejectOutcome_rejectOutcome]
  · simp only [hfst, if_neg hi]

theorem checkFold_fst (name : String) (ds : List String) :
    ∀ (b : Bool) (st : St),
      ((ds.foldl (checkDep1 name) (b, st))).1 = (b && ds.all (hasKey st.resolved)) := by
  induction ds with
  | nil => intro b st; simp
  | cons d rest ih =>
    intro b st
    rw [List.foldl_cons, checkDep1_eq]
    by_cases hi : d ∈ st.ignored
    · rw [if_pos hi, ih, rejectOutcome_eq_withOutcome, withOutcome_resolved]
      simp [Bool.and_assoc]
    · rw [if_neg hi]
      by_cases hu : ¬ hasKey st.services d
      · rw [if_pos hu, ih, rejectOutcome_eq_withOutcome, withOutcome_resolved]
        simp [Bool.and_assoc]
      · rw [if_neg hu, ih]
        simp [Bool.and_assoc]

theorem checkFold_snd (name : String) (ds : List String) :
    ∀ (b : Bool) (st : St), ∃ o,
      ((ds.foldl (checkDep1 name) (b, st))).2 = withOutcome st o := by
  induction ds with
  | nil => intro b st; exact ⟨st.outcome, (withOutcome_self st).symm⟩
  | cons d rest ih =>
    intro b st
    rw [List.foldl_cons, checkDep1_eq]
    by_cases hi : d ∈ st.ignored
    · rw [if_pos hi, rejectOutcome_eq_withOutcome]
      rcases ih _ (withOutcome st _) with ⟨o, ho⟩
      exact ⟨o, by rw [ho, withOutcome_withOutcome]⟩
    · rw [if_neg hi]
      by_cases hu : ¬ hasKey st.services d
      · rw [if_pos hu, rejectOutcome_eq_withOutcome]
        rcases ih _ (withOutcome st _) with ⟨o, ho⟩
        exact ⟨o, by rw [ho, withOutcome_withOutcome]⟩
      · rw [if_neg hu]
        exact ih _ st

theorem firstFatalL_withOutcome (st : St) (o) (name : String) (ds : List String) :
    firstFatalL (withOutcome st o) name ds = firstFatalL st name ds := rfl

theorem checkFold_settled (name : String) (ds : List String) :
    ∀ (b : Bool) (st : St) (o), st.outcome = some o →
      ((ds.foldl (checkDep1 name) (b, st))).2.outcome = some o := by
  induction ds with
  | nil => intro b st o h; exact h
  | cons d rest ih =>
    intro b st o h
    rw [List.foldl_cons, checkDep1_eq]
    by_cases hi : d ∈ st.ignored
    · rw [if_pos hi]
      exact ih _ _ o (rejectOutcome_settled h _)
    · rw [if_neg hi]
      by_cases hu : ¬ hasKey st.services d
      · rw [if_pos hu]
        exact ih _ _ o (rejectOutcome_settled h _)
      · rw [if_neg hu]
        exact ih _ st o h

theorem checkFold_none (name : String) (ds : List String) :
    ∀ (b : Bool) (st : St), st.outcome = none →
      ((ds.foldl (checkDep1 name) (b, st))).2.outcome =
        (firstFatalL st name ds).map Except.error := by
  induction ds with
  | nil => intro b st h; simpa [firstFatalL]
  | cons d rest ih =>
    intro b st h
    rw [List.foldl_cons, checkDep1_eq]
    by_cases hi : d ∈ st.ignored
    · rw [if_pos hi]
      have hs : (rejectOutcome st (.ignoredDependency d name)).outcome =
          some (.error (.ignoredDependency d name)) := rejectOutcome_of_none h _
      rw [checkFold_settled name rest _ _ _ hs, firstFatalL,
        List.findSome?_cons]
      simp [hi]
    · rw [if_neg hi]
      by_cases hu : ¬ hasKey st.services d
      · rw [if_pos hu]
        have hs : (rejectOutcome st (.unknownDependency d name)).outcome =
            some (.error (.unknownDependency d name)) := rejectOutcome_of_none h _
        rw [checkFold_settled name rest _ _ _ hs, firstFatalL,
          List.findSome?_cons]
        simp [hi, hu]
      · rw [if_neg hu, ih _ st h, firstFatalL, firstFatalL, List.findSome?_cons]
        simp only [if_neg hi]
        rw [if_neg (by simpa using hu)]

theorem checkDependencies_fst (st : St) (n : String) (spec : Spec) :
    (checkDependencies st n spec).1 = depsResolved st spec := by
  rw [checkDependencies]
  cases hd : spec.dependencies with
  | none => simp [depsResolved, getDependencyNames, hd]
  | some d =>
    cases d with
    | list names =>
      cases names with
      | nil => simp [depsResolved, getDependencyNames, hd]
      | cons x xs =>
        rw [checkFold_fst]
        simp [depsResolved, getDependencyNames, hd]
    | map entries =>
      rw [checkFold_fst]
      simp [depsResolved, getDependencyNames, hd]

theorem checkDependencies_snd (st : St) (n : String) (spec : Spec) :
    ∃ o, (checkDependencies st n spec).2 = withOutcome st o := by
  rw [checkDependencies]
  cases hd : spec.dependencies with
  | none => exact ⟨st.outcome, (withOutcome_self st).symm⟩
  | some d =>
    cases d with
    | list names =>
      cases names with
      | nil => exact ⟨st.outcome, (withOutcome_self st).symm⟩
      | cons x xs => exact checkFold_snd n _ _ _
    | map entries => exact checkFold_snd n _ _ _

theorem checkDependencies_settled {st : St} {o} (h : st.outcome = some o)
    (n : String) (spec : Spec) :
    (checkDependencies st n spec).2.outcome = some o := by
  rw [checkDependencies]
  cases hd : spec.dependencies with
  | none => exact h
  | some d =>
    cases d with
    | list names =>
      cases names with
      | nil => exact h
      | cons x xs => exact checkFold_settled n _ _ _ _ h
    | map entries => exact checkFold_settled n _ _ _ _ h

theorem checkDependencies_none {st : St} (h : st.outcome = none)
    (n : String) (spec : Spec) :
    (checkDependencies st n spec).2.outcome =
      (firstFatal st n spec).map Except.error := by
  rw [checkDependencies, firstFatal]
  cases hd : spec.dependencies with
  | none => simp [getDependencyNames, hd, firstFatalL, h]
  | some d =>
    cases d with
    | list names =>
      cases names with
      | nil => simp [getDependencyNames, hd, firstFatalL, h]
      | cons x xs => rw [checkFold_none n _ _ _ h]
    | map entries => rw [checkFold_none n _ _ _ h]

/-! Settlement preservation through every scheduler function: an already
settled run outcome is never changed by later machinery. -/

theorem addService_ok_outcome {st st' : St} {n : String} {spec : Spec}
    (h : addService st n spec = .ok st') : st'.outcome = st.outcome := by
  rw [addService] at h
  split at h
  · exact absurd h (by simp)
  · split at h
    · exact absurd h (by simp)
    · cases h; rfl

theorem addDependency_ok_outcome {st st' : St} {n d : String} {a : Option String}
    (h : addDependency st n d a = .ok st') : st'.outcome = st.outcome := by
  rw [addDependency] at h
  split at h
  · cases h
  · split at h
    · cases h
    · split at h
      · cases h
      · split at h
        · cases h
        · cases h; rfl

theorem applyOp_ok_outcome {st st' : St} {op : RegOp}
    (h : applyOp st op = .ok st') : st'.outcome = st.outcome := by
  cases op with
  | addService n spec => exact addService_ok_outcome h
  | addDependency n d a => exact addDependency_ok_outcome h

theorem applyOps_outcome (ops : List RegOp) :
    ∀ st : St, (applyOps st ops).1.outcome = st.outcome := by
  induction ops with
  | nil => intro st; rfl
  | cons op rest ih =>
    intro st
    rw [applyOps]
    cases hop : applyOp st op with
    | ok st' => rw [ih st', applyOp_ok_outcome hop]
    | error e => rfl

theorem obtainModule_settled {st : St} {o} (h : st.outcome = some o)
    (n : String) (spec : Spec) :
    (obtainModule st n spec).2.outcome = some o := by
  rw [obtainModule]
  cases spec.module with
  | some m => exact h
  | none =>
    cases spec.load with
    | ok m => exact h
    | nothing => exact h
    | throws c => exact rejectOutcome_settled h _

theorem register_settled {st : St} {o} (h : st.outcome = some o)
    (n : String) (r : ModResult) : (register st n r).outcome = some o := by
  cases r with
  | value v => exact h
  | promise r => cases r with
    | ok v => exact h
    | error e => exact h
  | throws e => exact rejectOutcome_settled h _

theorem invokeService_settled {st : St} {o} (h : st.outcome = some o)
    (n : String) (m : ModuleFn) : (invokeService st n m).outcome = some o := by
  rw [invokeService]
  cases hops : applyOps { st with
      starting := keyInsert st.starting n
      awaiting := spliceOut st.awaiting n
      timers := st.timers ++ [n] } m.effects with
  | mk st2 eff =>
    have h2 : st2.outcome = some o := by
      have := applyOps_outcome m.effects { st with
        starting := keyInsert st.starting n
        awaiting := spliceOut st.awaiting n
        timers := st.timers ++ [n] }
      rw [hops] at this
      exact this.trans h
    cases eff with
    | some e => exact rejectOutcome_settled h2 _
    | none => exact register_settled h2 _ _

theorem startService_settled {st : St} {o} (h : st.outcome = some o)
    (n : String) (spec : Spec) :
    (startService st n spec).outcome = some o := by
  rw [startService]
  cases hom : obtainModule st n spec with
  | mk om st1 =>
    have h1 : st1.outcome = some o := by
      have := obtainModule_settled h n spec
      rw [hom] at this; exact this
    cases om with
    | none => exact h1
    | some m => exact invokeService_settled h1 _ _

theorem roundLoop_settled (fuel : Nat) :
    ∀ (st : St) (i c : Nat) {o}, st.outcome = some o →
      (roundLoop st i c fuel).1.outcome = some o := by
  induction fuel with
  | zero => intro st i c o h; exact h
  | succ fuel ih =>
    intro st i c o h
    rw [roundLoop]
    split
    · rename_i hi
      cases hl : st.services.lookup (st.awaiting.get ⟨i, hi⟩) with
      | none => exact ih st (i + 1) c h
      | some spec =>
        dsimp only
        by_cases hb : (checkDependencies st (st.awaiting.get ⟨i, hi⟩) spec).1
        · rw [if_pos hb]
          exact ih _ (i + 1) (c + 1)
            (startService_settled (checkDependencies_settled h _ spec) _ _)
        · rw [if_neg hb]
          exact ih _ (i + 1) c (checkDependencies_settled h _ spec)
    · exact h

theorem nextRound_settled {st : St} {o} (h : st.outcome = some o) :
    (nextRound st).outcome = some o := by
  have h1 : (roundLoop st 0 0 (roundFuel st)).1.outcome = some o :=
    roundLoop_settled (roundFuel st) st 0 0 h
  rw [nextRound]
  split
  · exact resolveOutcome_settled h1
  · split
    · exact rejectOutcome_settled h1 _
    · exact h1

theorem processCompletion_settled {st : St} {o} (h : st.outcome = some o)
    (n : String) (c : Completion) :
    (processCompletion st n c).outcome = some o := by
  cases c with
  | err e => exact rejectOutcome_settled h _
  | ok v => exact nextRound_settled h

theorem stepEventLoop_settled {st : St} {o} (h : st.outcome = some o) :
    (stepEventLoop st).outcome = some o := by
  rw [stepEventLoop]
  split
  · exact h
  · rename_i name c rest heq
    exact @processCompletion_settled { st with pending := rest } _ h _ _

/-! Small toolkit lemmas for the round analysis. -/

theorem lookup_mem {α : Type} {l : List (String × α)} {n : String} {v : α}
    (h : l.lookup n = some v) : (n, v) ∈ l := by
  induction l with
  | nil => simp [List.lookup] at h
  | cons p rest ih =>
    cases p with
    | mk k w =>
      by_cases hk : n = k
      · subst hk
        rw [List.lookup, beq_self_eq_true] at h
        cases h
        exact List.mem_cons_self _ _
      · rw [List.lookup, beq_false_of_ne hk] at h
        exact List.mem_cons_of_mem _ (ih h)

theorem firstFatalL_eq_none {st : St} {n : String} {ds : List String}
    (h : ∀ d ∈ ds, d ∉ st.ignored ∧ hasKey st.services d = true) :
    firstFatalL st n ds = none := by
  induction ds with
  | nil => rfl
  | cons d rest ih =>
    rw [firstFatalL, List.findSome?_cons]
    rcases h d (List.mem_cons_self d rest) with ⟨hi, hk⟩
    rw [if_neg hi, if_neg (by simp [hk])]
    exact ih (fun x hx => h x (List.mem_cons_of_mem _ hx))

theorem checkDependencies_nofatal {st : St} {n : String} {spec : Spec}
    (ho : st.outcome = none)
    (h : ∀ d ∈ getDependencyNames spec, d ∉ st.ignored ∧ hasKey st.services d = true) :
    (checkDependencies st n spec).2 = st := by
  rcases checkDependencies_snd st n spec with ⟨o, hsnd⟩
  have hout : (checkDependencies st n spec).2.outcome = none := by
    rw [checkDependencies_none ho, firstFatal, firstFatalL_eq_none h]
    rfl
  rw [hsnd] at hout ⊢
  rw [withOutcome_outcome] at hout
  rw [hout, ← ho, withOutcome_self]

/-- A scan over awaiting services none of which is ready and none of which
hits a fatal condition starts nothing and leaves the state unchanged. -/
theorem roundLoop_stuck (fuel : Nat) :
    ∀ (st : St) (i c : Nat), st.outcome = none →
      (∀ n ∈ st.awaiting, ∃ spec, st.services.lookup n = some spec ∧
        depsResolved st spec = false ∧
        (∀ d ∈ getDependencyNames spec, d ∉ st.ignored ∧
          hasKey st.services d = true)) →
      roundLoop st i c fuel = (st, c) := by
  induction fuel with
  | zero => intro st i c _ _; rfl
  | succ fuel ih =>
    intro st i c ho h
    rw [roundLoop]
    split
    · rename_i hi
      rcases h _ (st.awaiting.get_mem i hi) with ⟨spec, hl, hdr, hnf⟩
      rw [hl]
      dsimp only
      rw [checkDependencies_fst, hdr]
      simp only [Bool.false_eq_true, if_false]
      rw [checkDependencies_nofatal ho hnf]
      exact ih st (i + 1) c ho h
    · rfl

/-- C3: on every evaluation of a service's dependency list (array entries or
dictionary values, in order), an ignored dependency settles the run's outcome
with the ignored-dependency error naming both services, an undeclared
dependency settles it with the unknown-dependency error naming both, the
ignored check running before the unknown check for each dependency; the first
fatal condition wins, and an outcome that is already settled is never
replaced by a later one. -/
theorem c3_fatal_dependency_conditions (st : St) (n : String) (spec : Spec) :
    (st.outcome = none →
      (checkDependencies st n spec).2.outcome =
        (firstFatal st n spec).map Except.error) ∧
    (∀ o, st.outcome = some o →
      (checkDependencies st n spec).2.outcome = some o) := by
  constructor
  · intro h; exact checkDependencies_none h n spec
  · intro o h; exact checkDependencies_settled h n spec

/-- Witness: on the concrete state `stIgnCase` the evaluation of `A`'s
dependencies settles the pending outcome with the ignored-dependency error
for `I` (which precedes the unknown `U` in the list). -/
theorem c3_fatal_dependency_conditions_witness :
    (checkDependencies stIgnCase "A"
        (specOf (syncMod "a") (some (.list ["I", "U"])))).2.outcome =
      some (.error (.ignoredDependency "I" "A")) :=
  ((c3_fatal_dependency_conditions stIgnCase "A"
      (specOf (syncMod "a") (some (.list ["I", "U"])))).1 rfl).trans (by decide)

theorem fillIgnored_no_flags {st : St}
    (h : ∀ n ∈ st.awaiting, ∀ spec, st.services.lookup n = some spec →
      spec.ignore = false) :
    fillIgnored st = st := by
  rw [fillIgnored]
  have : ∀ (l : List String), (∀ n ∈ l, ∀ spec, st.services.lookup n = some spec →
      spec.ignore = false) → ∀ acc, l.foldl (fun ign name =>
        match st.services.lookup name with
        | some spec => if spec.ignore then keyInsert ign name else ign
        | none => ign) acc = acc := by
    intro l
    induction l with
    | nil => intro _ acc; rfl
    | cons x xs ih =>
      intro hx acc
      rw [List.foldl_cons]
      cases hl : st.services.lookup x with
      | none => exact ih (fun n hn => hx n (List.mem_cons_of_mem _ hn)) acc
      | some spec =>
        have : spec.ignore = false := hx x (List.mem_cons_self _ _) spec hl
        simp only [this, Bool.false_eq_true, if_false]
        exact ih (fun n hn => hx n (List.mem_cons_of_mem _ hn)) acc
  rw [this st.awaiting h st.ignored]

theorem cleanAwaiting_of_no_ignored {st : St} (h : st.ignored = []) :
    cleanAwaiting st = st := by
  have hf : st.ignored.foldl spliceOut st.awaiting = st.awaiting := by
    rw [h]; rfl
  rw [cleanAwaiting, hf]

theorem all_hasKey_nil_eq_false {ds : List String} (h : ds ≠ []) :
    ds.all (hasKey ([] : ResolvedMap)) = false := by
  cases ds with
  | nil => exact absurd rfl h
  | cons d rest => rw [List.all_cons]; rfl

/-- C2 (amended): when a round's scan started zero activations, `starting` is
empty, `awaiting` is non-empty, and the outcome is still unsettled at the end
of the scan, `nextRound` settles the run with the circular-dependency error
naming every service still awaiting; and a configuration in which every
declared service has at least one declared, non-ignored dependency (hence
contains a cycle) and that passes the reserved-name check makes `execute()`
reject with that error naming all of its services. -/
theorem c2_deadlock_circular :
    (∀ st : St,
      (roundLoop st 0 0 (roundFuel st)).2 = 0 →
      (roundLoop st 0 0 (roundFuel st)).1.starting = [] →
      (roundLoop st 0 0 (roundFuel st)).1.awaiting ≠ [] →
      (roundLoop st 0 0 (roundFuel st)).1.outcome = none →
      (nextRound st).outcome =
        some (.error (.circularDependency
          (roundLoop st 0 0 (roundFuel st)).1.awaiting))) ∧
    (∀ cfg : Config, cfg.services ≠ [] →
      checkConstraints (init cfg) = none →
      (∀ p ∈ cfg.services, getDependencyNames p.2 ≠ [] ∧ p.2.ignore = false ∧
        ∀ d ∈ getDependencyNames p.2, hasKey cfg.services d = true) →
      ∃ st', execute (init cfg) = .running st' ∧
        st'.outcome = some (.error (.circularDependency (keys cfg.services)))) := by
  constructor
  · intro st h0 hs hne hout
    rw [nextRound]
    rw [if_neg (by rintro ⟨ha, _⟩; exact hne ha)]
    rw [if_pos ⟨h0, hs⟩]
    exact rejectOutcome_of_none hout _
  · intro cfg hne hcc hblocked
    have hpre : preRoundState cfg = { init cfg with executed := true } := by
      rw [preRoundState, fillIgnored_no_flags, cleanAwaiting_of_no_ignored rfl]
      intro n hn spec hl
      exact (hblocked _ (lookup_mem hl)).2.1
    have hstuck : roundLoop (preRoundState cfg) 0 0
        (roundFuel (preRoundState cfg)) = (preRoundState cfg, 0) := by
      apply roundLoop_stuck
      · rw [hpre]; rfl
      · intro n hn
        rw [hpre] at hn
        rcases lookup_isSome_of_mem (l := cfg.services) (n := n) hn with ⟨spec, hl⟩
        refine ⟨spec, ?_, ?_, ?_⟩
        · rw [hpre]; exact hl
        · rw [depsResolved, hpre]
          exact all_hasKey_nil_eq_false (hblocked _ (lookup_mem hl)).1
        · intro d hd
          rw [hpre]
          exact ⟨by simp [init], (hblocked _ (lookup_mem hl)).2.2 d hd⟩
    have hkeysne : keys cfg.services ≠ [] := by
      cases hsv : cfg.services with
      | nil => exact absurd hsv hne
      | cons p rest => simp [keys, hsv]
    refine ⟨nextRound (preRoundState cfg), ?_, ?_⟩
    · rw [execute, if_neg (by simp [init]), hcc]
      rfl
    · rw [nextRound, hstuck]
      have hawait : (preRoundState cfg).awaiting = keys cfg.services := by
        rw [hpre]; rfl
      rw [if_neg (by rw [hawait]; rintro ⟨ha, _⟩; exact hkeysne ha)]
      rw [if_pos ⟨rfl, by rw [hpre]; rfl⟩]
      rw [hawait]
      exact rejectOutcome_of_none (by rw [hpre]; rfl) _

/-- Witness: scenario B's three-cycle `A→B→C→A` satisfies the hypotheses and
`execute()` rejects with the circular-dependency error naming all three. -/
theorem c2_deadlock_circular_witness :
    ∃ st', execute (init cfgCycle) = .running st' ∧
      st'.outcome = some (.error (.circularDependency
        ["serviceA", "serviceB", "serviceC"])) :=
  c2_deadlock_circular.2 cfgCycle (List.cons_ne_nil _ _) (by decide)
    (by decide)

/-- Counterexample to C2 as stated: for the configuration whose only service
depends on the missing `M`, the single round starts zero activations with
`starting` empty and `awaiting` non-empty, yet the run settles with the
unknown-dependency error, not with a circular-dependency error. -/
theorem c2_counterexample :
    (roundLoop (preRoundState cfgMissing) 0 0
      (roundFuel (preRoundState cfgMissing))).2 = 0 ∧
    (roundLoop (preRoundState cfgMissing) 0 0
      (roundFuel (preRoundState cfgMissing))).1.starting = [] ∧
    (roundLoop (preRoundState cfgMissing) 0 0
      (roundFuel (preRoundState cfgMissing))).1.awaiting = ["serviceA"] ∧
    execute (init cfgMissing) = .running (nextRound (preRoundState cfgMissing)) ∧
    (nextRound (preRoundState cfgMissing)).outcome =
      some (.error (.unknownDependency "M" "serviceA")) ∧
    ¬ (nextRound (preRoundState cfgMissing)).outcome =
      some (.error (.circularDependency ["serviceA"])) :=
  ⟨by decide, by decide, by decide, rfl, by decide, by decide⟩

/-- C7 (amended): when a service's implementation loading throws, activation
settles the run's outcome with the module-load error naming the service and
wrapping the thrown cause; when loading returns nothing without throwing, the
activation is abandoned silently — the state is completely unchanged (the
service stays awaiting and no module-load error is settled), so the run can
hang without settling. -/
theorem c7_module_load_failures (st : St) (n : String) (spec : Spec) :
    (spec.module = none → ∀ cause, spec.load = .throws cause →
      startService st n spec = rejectOutcome st (.moduleLoad n cause)) ∧
    (spec.module = none → spec.load = .nothing →
      startService st n spec = st) := by
  constructor
  · intro hm cause hl
    cases spec with
    | mk d i m l =>
      have hm' : m = none := hm
      have hl' : l = .throws cause := hl
      subst hm'; subst hl'
      rfl
  · intro hm hl
    cases spec with
    | mk d i m l =>
      have hm' : m = none := hm
      have hl' : l = .nothing := hl
      subst hm'; subst hl'
      rfl

/-- Witness: concrete throwing and nothing-returning loaders, at the initial
states of the corresponding one-service configurations. -/
theorem c7_module_load_failures_witness :
    startService (init cfgLoadThrows) "A" (.mk none false none (.throws "boom")) =
      rejectOutcome (init cfgLoadThrows) (.moduleLoad "A" "boom") ∧
    startService (init cfgLoadNothing) "A" (.mk none false none .nothing) =
      init cfgLoadNothing :=
  ⟨(c7_module_load_failures (init cfgLoadThrows) "A"
      (.mk none false none (.throws "boom"))).1 rfl "boom" rfl,
   (c7_module_load_failures (init cfgLoadNothing) "A"
      (.mk none false none .nothing)).2 rfl rfl⟩

/-- Counterexample to C7 as stated: with a loader that returns nothing
without throwing, `execute` leaves the service awaiting, schedules nothing,
arms nothing, settles nothing — and the event loop is stuck at a fixpoint, so
no module-load error is ever settled. -/
theorem c7_counterexample :
    execute (init cfgLoadNothing) = .running (runToEnd cfgLoadNothing 0) ∧
    (runToEnd cfgLoadNothing 0).outcome = none ∧
    (runToEnd cfgLoadNothing 0).pending = [] ∧
    (runToEnd cfgLoadNothing 0).timers = [] ∧
    (runToEnd cfgLoadNothing 0).awaiting = ["A"] ∧
    stepEventLoop (runToEnd cfgLoadNothing 0) = runToEnd cfgLoadNothing 0 :=
  ⟨rfl, by decide, by decide, by decide, by decide, rfl⟩

/-- C8: evaluating the code at the failing input of the repository's
`addDependency`-after-start test — after `cfgStarted` fully started, `B` has
resolved and left the starting set, and `addDependency("B", "C")` succeeds
instead of failing with the already-starting error. -/
theorem c8_addDependency_after_resolved :
    stStarted.started = true ∧
    "B" ∈ keys stStarted.resolved ∧
    stStarted.starting = [] ∧
    (addDependency stStarted "B" "C" none).isOk = true :=
  ⟨by decide, by decide, by decide, by decide⟩

/-- C6 (amended): reserved module-loading identifiers are rejected only by
`execute`'s constraint check, which scans the awaiting service names and each
awaiting service's dependency target names (dictionary values, not aliases)
at that moment; `execute` returns the reserved-name rejection when the check
trips before it marks the instance executed; and the dynamic mutation calls
never raise a reserved-name error — `addService` fails only with
duplicate-service or already-started, `addDependency` only with
unknown-service, already-starting or no-dependencies. -/
theorem c6_reserved_name_checking :
    (∀ names : List String, checkNameConstraints names = none ↔
      ∀ n ∈ names, n ≠ "require" ∧ n ≠ "requireDefault") ∧
    (∀ st : St, checkConstraints st = none ↔
      ((∀ n ∈ st.awaiting, n ≠ "require" ∧ n ≠ "requireDefault") ∧
       ∀ n ∈ st.awaiting, ∀ spec, st.services.lookup n = some spec →
         ∀ d ∈ getDependencyNames spec,
           d ≠ "require" ∧ d ≠ "requireDefault")) ∧
    (∀ st : St, ∀ e : Err, st.executed = false → checkConstraints st = some e →
      execute st = .rejected e st) ∧
    (∀ (st : St) (n : String) (spec : Spec) (e : Err),
      addService st n spec = .error e →
      e = .duplicateService n ∨ e = .addAfterStarted n) ∧
    (∀ (st : St) (n d : String) (a : Option String) (e : Err),
      addDependency st n d a = .error e →
      e = .unknownService n ∨ e = .alreadyStarting n ∨ e = .notDependent n) := by
  have h1 : ∀ names : List String, checkNameConstraints names = none ↔
      ∀ n ∈ names, n ≠ "require" ∧ n ≠ "requireDefault" := by
    intro names
    rw [checkNameConstraints, List.findSome?_eq_none_iff]
    constructor
    · intro h n hn
      have := h n hn
      constructor
      · intro hc; rw [hc] at this; simp at this
      · intro hc; rw [hc] at this; simp at this
    · intro h n hn
      rcases h n hn with ⟨h1, h2⟩
      rw [if_neg h1, if_neg h2]
  refine ⟨h1, ?_, ?_, ?_, ?_⟩
  · intro st
    rw [checkConstraints]
    cases hc : checkNameConstraints st.awaiting with
    | some e =>
      simp only []
      constructor
      · intro h; cases h
      · rintro ⟨ha, _⟩
        rw [(h1 st.awaiting).mpr ha] at hc
        cases hc
    | none =>
      simp only [List.findSome?_eq_none_iff]
      constructor
      · intro h
        refine ⟨(h1 st.awaiting).mp hc, ?_⟩
        intro n hn spec hl d hd
        have := h n hn
        rw [hl] at this
        exact (h1 (getDependencyNames spec)).mp this d hd
      · rintro ⟨_, hdeps⟩ n hn
        cases hl : st.services.lookup n with
        | none => rfl
        | some spec =>
          exact (h1 (getDependencyNames spec)).mpr
            (fun d hd => hdeps n hn spec hl d hd)
  · intro st e hex hc
    rw [execute, if_neg (by rw [hex]; exact Bool.false_ne_true), hc]
  · intro st n spec e h
    rw [addService] at h
    split at h
    · cases h; exact Or.inl rfl
    · split at h
      · cases h; exact Or.inr rfl
      · cases h
  · intro st n d a e h
    rw [addDependency] at h
    split at h
    · cases h; exact Or.inl rfl
    · split at h
      · cases h; exact Or.inr (Or.inl rfl)
      · split at h
        · cases h; exact Or.inl rfl
        · split at h
          · cases h; exact Or.inr (Or.inr rfl)
          · cases h

/-- Witness: a configuration whose initial graph declares a service named
`require` is rejected by `execute` with the reserved-name error. -/
theorem c6_reserved_name_checking_witness :
    execute (init cfgInitReserved) =
      .rejected (.reservedName "require") (init cfgInitReserved) :=
  c6_reserved_name_checking.2.2.1 (init cfgInitReserved)
    (.reservedName "require") rfl rfl

/-- Counterexample to C6 as stated: a module that dynamically registers a
service named `require` succeeds (the run resolves, with `require` among the
resolved services, and no reserved-name failure), and a graph using `require`
as a dependency alias also starts successfully. -/
theorem c6_counterexample :
    (runToEnd cfgDynReserved 5).outcome =
      some (.ok [("A", .str "mA"), ("require", .str "mR")]) ∧
    "require" ∈ keys (runToEnd cfgDynReserved 5).resolved ∧
    (runToEnd cfgAliasReserved 5).outcome =
      some (.ok [("b", .str "mb"), ("a", .str "ma")]) :=
  ⟨by decide, by decide, by decide⟩

/-- C5 (amended): in scenario D — `A` dependency-free, `B` depending on `A` —
the run resolves `A` before `B`, `shutdown()` invokes the teardown actions in
that same resolution order, i.e. `A`'s teardown before `B`'s, and the
shutdown call succeeds once both actions complete successfully within the
shutdown timeout. -/
theorem c5_shutdown_order (dur : String → Nat) (ok : String → Bool)
    (hA : ok "tdA" = true) (hB : ok "tdB" = true)
    (hdA : dur "tdA" < 5000) (hdB : dur "tdB" < 5000) :
    (runToEnd cfgD 5).outcome = some (.ok
      [("A", .obj "mA" (some "tdA")), ("B", .obj "mB" (some "tdB"))]) ∧
    shutdownOrder (runToEnd cfgD 5) = ["A", "B"] ∧
    shutdownResult (runToEnd cfgD 5) dur ok = .ok () := by
  refine ⟨by decide, by decide, ?_⟩
  have ht : (runToEnd cfgD 5).teardown = [("A", some "tdA"), ("B", some "tdB")] := by
    decide
  have hs : (runToEnd cfgD 5).started = true := by decide
  have htm : (runToEnd cfgD 5).shutdownTimeout = 5000 := by decide
  rw [shutdownResult, if_neg (by rw [hs]; simp)]
  rw [if_pos]
  rw [ht, htm]
  simp [teardownCompletesWithin, hA, hB, hdA, hdB]

/-- Witness for the amended C5, with both teardown actions succeeding
instantly. -/
theorem c5_shutdown_order_witness :
    shutdownOrder (runToEnd cfgD 5) = ["A", "B"] ∧
    shutdownResult (runToEnd cfgD 5) (fun _ => 0) (fun _ => true) = .ok () :=
  ⟨(c5_shutdown_order (fun _ => 0) (fun _ => true) rfl rfl (by decide)
      (by decide)).2.1,
   (c5_shutdown_order (fun _ => 0) (fun _ => true) rfl rfl (by decide)
      (by decide)).2.2⟩

/-- Counterexample to C5 as stated: in scenario D the recorded teardown order
is `A` then `B` — `A`'s teardown action is invoked strictly before `B`'s, not
after it. -/
theorem c5_counterexample :
    shutdownOrder (runToEnd cfgD 5) = ["A", "B"] ∧
    (shutdownOrder (runToEnd cfgD 5)).indexOf "A" <
      (shutdownOrder (runToEnd cfgD 5)).indexOf "B" :=
  ⟨by decide, by decide⟩

/-- C10: the ignored set is computed from `awaiting` once, before the first
round; a service registered through `addService` after `execute` began keeps
its ignore flag inert — registration appends it to `awaiting` and leaves the
ignored set (and the other tracking sets) untouched whatever the flag says —
and in the concrete run whose only initial service dynamically registers `B`
with `ignore: true`, `B` is activated anyway and appears in the resolved
mapping while the ignored set stays empty. -/
theorem c10_dynamic_ignore_ineffective :
    (∀ (st : St) (name : String) (spec : Spec) (st' : St),
      st.executed = true → addService st name spec = .ok st' →
      st'.awaiting = st.awaiting ++ [name] ∧ st'.ignored = st.ignored ∧
      st'.starting = st.starting ∧ st'.resolved = st.resolved) ∧
    (runToEnd cfgDynIgnored 5).outcome =
      some (.ok [("A", .str "mA"), ("B", .str "mB")]) ∧
    (runToEnd cfgDynIgnored 5).ignored = [] ∧
    "B" ∈ keys (runToEnd cfgDynIgnored 5).resolved := by
  refine ⟨?_, by decide, by decide, by decide⟩
  intro st name spec st' _ h
  rw [addService] at h
  split at h
  · cases h
  · split at h
    · cases h
    · cases h; exact ⟨rfl, rfl, rfl, rfl⟩

/-- Witness: dynamically adding the ignore-flagged `Z` right after `execute`
began on `cfgStarted` appends it to `awaiting` and leaves `ignored` empty. -/
theorem c10_dynamic_ignore_ineffective_witness :
    (runToEnd cfgStarted 0).executed = true ∧
    stMidAdded.awaiting = (runToEnd cfgStarted 0).awaiting ++ ["Z"] ∧
    stMidAdded.ignored = (runToEnd cfgStarted 0).ignored :=
  ⟨by decide,
   ((c10_dynamic_ignore_ineffective.1 (runToEnd cfgStarted 0) "Z" zSpec
      stMidAdded (by decide) rfl)).1,
   ((c10_dynamic_ignore_ineffective.1 (runToEnd cfgStarted 0) "Z" zSpec
      stMidAdded (by decide) rfl)).2.1⟩

/-- C4: the run's outcome, once settled with success or with any failure,
never changes along any sequence of observable transitions — later
settlement attempts (a second fatal condition, a late startup-timer firing,
a late completion of an abandoned activation) are silently dropped, as are
the registry mutations in between. -/
theorem c4_single_settlement (st st' : St) (h : Reach st st')
    (o : Except Err ResolvedMap) (ho : st.outcome = some o) :
    st'.outcome = some o := by
  induction h with
  | refl => exact ho
  | tail hsteps hstep ih =>
    rename_i b c
    cases hstep with
    | complete name cmp pre post hp =>
      exact @processCompletion_settled { b with pending := pre ++ post } _ ih _ _
    | timerFire name hmem =>
      exact @rejectOutcome_settled { b with timers := b.timers.erase name } _ ih _
    | regAddService st1 name spec hadd =>
      rw [addService_ok_outcome hadd]; exact ih
    | regAddDependency st1 name dep a hadd =>
      rw [addDependency_ok_outcome hadd]; exact ih

/-- Witness: a late completion delivered on the already-failed state `stLate`
leaves its unknown-dependency outcome untouched. -/
theorem c4_single_settlement_witness :
    stLate.outcome = some (.error (.unknownDependency "M" "serviceA")) ∧
    (processCompletion { stLate with pending := [] ++ [] } "serviceA"
      (.ok (some (.str "x")))).outcome =
      some (.error (.unknownDependency "M" "serviceA")) :=
  ⟨by decide,
   c4_single_settlement stLate
     (processCompletion { stLate with pending := [] ++ [] } "serviceA"
       (.ok (some (.str "x"))))
     (Relation.ReflTransGen.single
       (EStep.complete stLate "serviceA" (.ok (some (.str "x"))) [] []
         (by decide)))
     _ (by decide)⟩

/-! Registry bookkeeping invariant: preservation through every observable
transition. -/

theorem foldl_spliceOut_sublist (names : List String) :
    ∀ l : List String, (names.foldl spliceOut l).Sublist l := by
  induction names with
  | nil => intro l; exact List.Sublist.refl l
  | cons n rest ih =>
    intro l
    rw [List.foldl_cons]
    exact (ih (spliceOut l n)).trans (spliceOut_sublist l n)

theorem inv_withOutcome {st : St} (h : Inv st) (o) : Inv (withOutcome st o) :=
  ⟨h.servNodup, h.awaitSub, h.awaitNodup, h.startSub, h.startNodup, h.resSub,
   h.resNodup, h.dAS, h.dAR, h.dSR, h.pendSub, h.pendNodup⟩

theorem inv_rejectOutcome {st : St} (h : Inv st) (e : Err) :
    Inv (rejectOutcome st e) := by
  rw [rejectOutcome_eq_withOutcome]
  exact inv_withOutcome h _

theorem addService_ok_cases {st st' : St} {n : String} {spec : Spec}
    (h : addService st n spec = .ok st') :
    hasKey st.services n = false ∧ st.started = false ∧
    st' = { st with services := objSet st.services n spec
                    awaiting := st.awaiting ++ [n] } := by
  rw [addService] at h
  split at h
  · cases h
  · split at h
    · cases h
    · rename_i h1 h2
      cases h
      exact ⟨by simpa using h1, by simpa using h2, rfl⟩

theorem addDependency_ok_cases {st st' : St} {n d : String} {a : Option String}
    (h : addDependency st n d a = .ok st') :
    n ∉ st.starting ∧
    ∃ spec deps, st.services.lookup n = some spec ∧
      spec.dependencies = some deps ∧
      st' = { st with services := st.services.map (fun p =>
        if p.1 = n then
          (p.1, p.2.withDependencies (some (addDependencyDeps deps d a)))
        else p) } := by
  rw [addDependency] at h
  split at h
  · cases h
  · split at h
    · cases h
    · rename_i h1 h2
      split at h
      · cases h
      · rename_i spec hl
        split at h
        · cases h
        · rename_i deps hd
          cases h
          exact ⟨h2, spec, deps, hl, hd, rfl⟩

theorem addService_ok_inv {st st' : St} {n : String} {spec : Spec}
    (h : addService st n spec = .ok st') (hinv : Inv st) : Inv st' := by
  rcases addService_ok_cases h with ⟨hk, _, rfl⟩
  have hnk : n ∉ keys st.services := fun hc => by
    rw [(hasKey_iff st.services n).mpr hc] at hk; cases hk
  have hkeys : keys (objSet st.services n spec) = keys st.services ++ [n] :=
    keys_objSet_of_not_mem spec hnk
  have hnaw : n ∉ st.awaiting := fun hc => hnk (hinv.awaitSub hc)
  have hnst : n ∉ st.starting := fun hc => hnk (hinv.startSub hc)
  have hnre : n ∉ keys st.resolved := fun hc => hnk (hinv.resSub hc)
  refine ⟨?_, ?_, ?_, ?_, hinv.startNodup, ?_, hinv.resNodup, ?_, ?_, hinv.dSR,
    hinv.pendSub, hinv.pendNodup⟩
  · rw [hkeys, List.nodup_append]
    exact ⟨hinv.servNodup, List.nodup_singleton n,
      fun a ha hb => by rw [List.mem_singleton] at hb; subst hb; exact hnk ha⟩
  · intro a ha
    rw [hkeys]
    rcases List.mem_append.mp ha with ha | ha
    · exact List.mem_append_left _ (hinv.awaitSub ha)
    · exact List.mem_append_right _ ha
  · rw [List.nodup_append]
    exact ⟨hinv.awaitNodup, List.nodup_singleton n,
      fun a ha hb => by rw [List.mem_singleton] at hb; subst hb; exact hnaw ha⟩
  · intro a ha
    rw [hkeys]
    exact List.mem_append_left _ (hinv.startSub ha)
  · intro a ha
    rw [hkeys]
    exact List.mem_append_left _ (hinv.resSub ha)
  · intro a ha
    rcases List.mem_append.mp ha with ha | ha
    · exact hinv.dAS a ha
    · rw [List.mem_singleton] at ha; subst ha; exact hnst
  · intro a ha
    rcases List.mem_append.mp ha with ha | ha
    · exact hinv.dAR a ha
    · rw [List.mem_singleton] at ha; subst ha; exact hnre

theorem addDependency_ok_inv {st st' : St} {n d : String} {a : Option String}
    (h : addDependency st n d a = .ok st') (hinv : Inv st) : Inv st' := by
  rcases addDependency_ok_cases h with ⟨_, spec, deps, _, _, rfl⟩
  have hkeys : keys (st.services.map (fun p =>
      if p.1 = n then
        (p.1, p.2.withDependencies (some (addDependencyDeps deps d a)))
      else p)) = keys st.services :=
    keys_update st.services n _
  refine ⟨?_, ?_, hinv.awaitNodup, ?_, hinv.startNodup, ?_, hinv.resNodup,
    hinv.dAS, hinv.dAR, hinv.dSR, hinv.pendSub, hinv.pendNodup⟩
  · rw [hkeys]; exact hinv.servNodup
  · intro x hx; rw [hkeys]; exact hinv.awaitSub hx
  · intro x hx; rw [hkeys]; exact hinv.startSub hx
  · intro x hx; rw [hkeys]; exact hinv.resSub hx

theorem applyOp_ok_inv {st st' : St} {op : RegOp}
    (h : applyOp st op = .ok st') (hinv : Inv st) : Inv st' := by
  cases op with
  | addService n spec => exact addService_ok_inv h hinv
  | addDependency n dep a => exact addDependency_ok_inv h hinv

theorem applyOps_inv (ops : List RegOp) :
    ∀ st : St, Inv st → Inv (applyOps st ops).1 := by
  induction ops with
  | nil => intro st h; exact h
  | cons op rest ih =>
    intro st h
    rw [applyOps]
    cases hop : applyOp st op with
    | ok st1 => exact ih st1 (applyOp_ok_inv hop h)
    | error e => exact h

theorem addService_ok_starting {st st' : St} {n : String} {spec : Spec}
    (h : addService st n spec = .ok st') : st'.starting = st.starting := by
  rcases addService_ok_cases h with ⟨_, _, rfl⟩; rfl

theorem addDependency_ok_starting {st st' : St} {n d : String}
    {a : Option String} (h : addDependency st n d a = .ok st') :
    st'.starting = st.starting := by
  rcases addDependency_ok_cases h with ⟨_, spec, deps, _, _, rfl⟩; rfl

theorem addService_ok_pending {st st' : St} {n : String} {spec : Spec}
    (h : addService st n spec = .ok st') : st'.pending = st.pending := by
  rcases addService_ok_cases h with ⟨_, _, rfl⟩; rfl

theorem addDependency_ok_pending {st st' : St} {n d : String}
    {a : Option String} (h : addDependency st n d a = .ok st') :
    st'.pending = st.pending := by
  rcases addDependency_ok_cases h with ⟨_, spec, deps, _, _, rfl⟩; rfl

theorem applyOps_starting (ops : List RegOp) :
    ∀ st : St, (applyOps st ops).1.starting = st.starting := by
  induction ops with
  | nil => intro st; rfl
  | cons op rest ih =>
    intro st
    rw [applyOps]
    cases hop : applyOp st op with
    | ok st1 =>
      rw [ih st1]
      cases op with
      | addService n spec => exact addService_ok_starting hop
      | addDependency n d a => exact addDependency_ok_starting hop
    | error e => rfl

theorem applyOps_pending (ops : List RegOp) :
    ∀ st : St, (applyOps st ops).1.pending = st.pending := by
  induction ops with
  | nil => intro st; rfl
  | cons op rest ih =>
    intro st
    rw [applyOps]
    cases hop : applyOp st op with
    | ok st1 =>
      rw [ih st1]
      cases op with
      | addService n spec => exact addService_ok_pending hop
      | addDependency n d a => exact addDependency_ok_pending hop
    | error e => rfl

theorem inv_markStarting {st : St} {n : String} (hinv : Inv st)
    (hn : n ∈ st.awaiting) :
    Inv { st with starting := keyInsert st.starting n
                  awaiting := spliceOut st.awaiting n
                  timers := st.timers ++ [n] } := by
  have hnst : n ∉ st.starting := hinv.dAS n hn
  have hks : keyInsert st.starting n = st.starting ++ [n] := if_neg hnst
  have hsp : spliceOut st.awaiting n = st.awaiting.erase n := spliceOut_of_mem hn
  refine ⟨hinv.servNodup, ?_, ?_, ?_, ?_, hinv.resSub, hinv.resNodup, ?_, ?_,
    ?_, ?_, hinv.pendNodup⟩
  · intro a ha
    rw [hsp] at ha
    exact hinv.awaitSub ((st.awaiting.erase_sublist n).subset ha)
  · rw [hsp]; exact hinv.awaitNodup.erase n
  · intro a ha
    rw [hks] at ha
    rcases List.mem_append.mp ha with h | h
    · exact hinv.startSub h
    · rw [List.mem_singleton] at h; subst h; exact hinv.awaitSub hn
  · rw [hks, List.nodup_append]
    exact ⟨hinv.startNodup, List.nodup_singleton n, fun a ha hb => by
      rw [List.mem_singleton] at hb; subst hb; exact hnst ha⟩
  · intro a ha
    rw [hsp] at ha
    rw [hks]
    rcases (hinv.awaitNodup.mem_erase_iff).mp ha with ⟨hne, hm⟩
    intro hc
    rcases List.mem_append.mp hc with h | h
    · exact hinv.dAS a hm h
    · rw [List.mem_singleton] at h; exact hne h
  · intro a ha
    rw [hsp] at ha
    exact hinv.dAR a ((st.awaiting.erase_sublist n).subset ha)
  · intro a ha
    rw [hks] at ha
    rcases List.mem_append.mp ha with h | h
    · exact hinv.dSR a h
    · rw [List.mem_singleton] at h; subst h; exact hinv.dAR a hn
  · intro p hp
    rw [hks]
    exact List.mem_append_left _ (hinv.pendSub p hp)

theorem register_inv {st : St} {n : String} (hinv : Inv st)
    (hn : n ∈ st.starting) (hp : n ∉ st.pending.map Prod.fst) (r : ModResult) :
    Inv (register st n r) := by
  have happend : ∀ c : Completion,
      Inv { st with pending := st.pending ++ [(n, c)] } := by
    intro c
    refine ⟨hinv.servNodup, hinv.awaitSub, hinv.awaitNodup, hinv.startSub,
      hinv.startNodup, hinv.resSub, hinv.resNodup, hinv.dAS, hinv.dAR,
      hinv.dSR, ?_, ?_⟩
    · intro p hp'
      rcases List.mem_append.mp hp' with h | h
      · exact hinv.pendSub p h
      · rw [List.mem_singleton] at h; subst h; exact hn
    · rw [List.map_append, List.nodup_append]
      refine ⟨hinv.pendNodup, List.nodup_singleton n, fun a ha hb => ?_⟩
      simp only [List.map_cons, List.map_nil, List.mem_singleton] at hb
      subst hb
      exact hp ha
  cases r with
  | throws e => exact inv_rejectOutcome hinv _
  | value v => exact happend _
  | promise r =>
    cases r with
    | ok v => exact happend _
    | error e => exact happend _

theorem invokeService_inv {st : St} {n : String} {m : ModuleFn} (hinv : Inv st)
    (hn : n ∈ st.awaiting) : Inv (invokeService st n m) := by
  have hinv2 : Inv { st with starting := keyInsert st.starting n
                             awaiting := spliceOut st.awaiting n
                             timers := st.timers ++ [n] } :=
    inv_markStarting hinv hn
  rw [invokeService]
  cases hops : applyOps { st with starting := keyInsert st.starting n
                                  awaiting := spliceOut st.awaiting n
                                  timers := st.timers ++ [n] } m.effects with
  | mk st3 eff =>
    have hinv3 : Inv st3 := by
      have := applyOps_inv m.effects _ hinv2
      rw [hops] at this
      exact this
    have hst3 : st3.starting = st.starting ++ [n] := by
      have := applyOps_starting m.effects { st with
        starting := keyInsert st.starting n
        awaiting := spliceOut st.awaiting n
        timers := st.timers ++ [n] }
      rw [hops] at this
      rw [this]
      exact if_neg (hinv.dAS n hn)
    have hpd3 : st3.pending = st.pending := by
      have := applyOps_pending m.effects { st with
        starting := keyInsert st.starting n
        awaiting := spliceOut st.awaiting n
        timers := st.timers ++ [n] }
      rw [hops] at this
      exact this
    cases eff with
    | some e => exact inv_rejectOutcome hinv3 _
    | none =>
      apply register_inv hinv3
      · rw [hst3]
        exact List.mem_append_right _ (List.mem_singleton_self n)
      · rw [hpd3]
        intro hc
        rcases List.mem_map.mp hc with ⟨p, hp, hfst⟩
        exact hinv.dAS n hn (by rw [← hfst]; exact hinv.pendSub p hp)

theorem obtainModule_snd_inv {st : St} (hinv : Inv st) (n : String)
    (spec : Spec) : Inv (obtainModule st n spec).2 := by
  rw [obtainModule]
  cases spec.module with
  | some m => exact hinv
  | none =>
    cases spec.load with
    | ok m => exact hinv
    | nothing => exact hinv
    | throws c => exact inv_rejectOutcome hinv _

theorem obtainModule_snd_awaiting (st : St) (n : String) (spec : Spec) :
    (obtainModule st n spec).2.awaiting = st.awaiting := by
  rw [obtainModule]
  cases spec.module with
  | some m => rfl
  | none =>
    cases spec.load with
    | ok m => rfl
    | nothing => rfl
    | throws c =>
      dsimp only
      rw [rejectOutcome_eq_withOutcome, withOutcome_awaiting]

theorem startService_inv {st : St} {n : String} {spec : Spec} (hinv : Inv st)
    (hn : n ∈ st.awaiting) : Inv (startService st n spec) := by
  rw [startService]
  cases hom : obtainModule st n spec with
  | mk om st1 =>
    have hinv1 : Inv st1 := by
      have := obtainModule_snd_inv hinv n spec
      rw [hom] at this
      exact this
    have hn1 : n ∈ st1.awaiting := by
      have := obtainModule_snd_awaiting st n spec
      rw [hom] at this
      rw [this]
      exact hn
    cases om with
    | none => exact hinv1
    | some m => exact invokeService_inv hinv1 hn1

theorem roundLoop_inv (fuel : Nat) :
    ∀ (st : St) (i c : Nat), Inv st → Inv (roundLoop st i c fuel).1 := by
  induction fuel with
  | zero => intro st i c h; exact h
  | succ fuel ih =>
    intro st i c h
    rw [roundLoop]
    split
    · rename_i hi
      cases hl : st.services.lookup (st.awaiting.get ⟨i, hi⟩) with
      | none => exact ih st (i + 1) c h
      | some spec =>
        dsimp only
        rcases checkDependencies_snd st (st.awaiting.get ⟨i, hi⟩) spec with
          ⟨o, hsnd⟩
        have hinvc : Inv (checkDependencies st (st.awaiting.get ⟨i, hi⟩) spec).2 := by
          rw [hsnd]; exact inv_withOutcome h o
        have hnc : st.awaiting.get ⟨i, hi⟩ ∈
            (checkDependencies st (st.awaiting.get ⟨i, hi⟩) spec).2.awaiting := by
          rw [hsnd, withOutcome_awaiting]
          exact st.awaiting.get_mem i hi
        by_cases hb : (checkDependencies st (st.awaiting.get ⟨i, hi⟩) spec).1
        · rw [if_pos hb]
          exact ih _ (i + 1) (c + 1) (startService_inv hinvc hnc)
        · rw [if_neg hb]
          exact ih _ (i + 1) c hinvc
    · exact h

theorem inv_resolveOutcome {st : St} (h : Inv st) : Inv (resolveOutcome st) := by
  rw [resolveOutcome_eq_withOutcome]
  exact inv_withOutcome h _

theorem nextRound_inv {st : St} (h : Inv st) : Inv (nextRound st) := by
  have h1 : Inv (roundLoop st 0 0 (roundFuel st)).1 :=
    roundLoop_inv (roundFuel st) st 0 0 h
  have h2 : Inv { (roundLoop st 0 0 (roundFuel st)).1 with started := true } :=
    ⟨h1.servNodup, h1.awaitSub, h1.awaitNodup, h1.startSub, h1.startNodup,
     h1.resSub, h1.resNodup, h1.dAS, h1.dAR, h1.dSR, h1.pendSub, h1.pendNodup⟩
  rw [nextRound]
  split
  · exact inv_resolveOutcome h2
  · split
    · exact inv_rejectOutcome h1 _
    · exact h1

theorem inv_mid {st : St} {n : String} (v : Option Value)
    (hinv : Inv st) (hn : n ∈ st.starting)
    (hp : n ∉ st.pending.map Prod.fst) :
    Inv { st with
      timers := st.timers.erase n
      starting := st.starting.erase n
      resolved := objSet st.resolved n (v.getD Value.emptyObj)
      teardown := objSet st.teardown n
        ((v.getD Value.emptyObj)).shutdownAction } := by
    have hnres : n ∉ keys st.resolved := hinv.dSR n hn
    have hkeys : keys (objSet st.resolved n (v.getD Value.emptyObj)) =
        keys st.resolved ++ [n] := keys_objSet_of_not_mem _ hnres
    refine ⟨hinv.servNodup, hinv.awaitSub, hinv.awaitNodup, ?_, ?_, ?_, ?_,
      ?_, ?_, ?_, ?_, hinv.pendNodup⟩
    · intro a ha
      exact hinv.startSub ((st.starting.erase_sublist n).subset ha)
    · exact hinv.startNodup.erase n
    · intro a ha
      rw [hkeys] at ha
      rcases List.mem_append.mp ha with h | h
      · exact hinv.resSub h
      · rw [List.mem_singleton] at h; subst h; exact hinv.startSub hn
    · rw [hkeys, List.nodup_append]
      exact ⟨hinv.resNodup, List.nodup_singleton n, fun a ha hb => by
        rw [List.mem_singleton] at hb; subst hb; exact hnres ha⟩
    · intro a ha
      intro hc
      exact hinv.dAS a ha ((st.starting.erase_sublist n).subset hc)
    · intro a ha
      rw [hkeys]
      intro hc
      rcases List.mem_append.mp hc with h | h
      · exact hinv.dAR a ha h
      · rw [List.mem_singleton] at h; exact hinv.dAS a ha (h.symm ▸ hn)
    · intro a ha
      rw [hkeys]
      rcases (hinv.startNodup.mem_erase_iff).mp ha with ⟨hne, hm⟩
      intro hc
      rcases List.mem_append.mp hc with h | h
      · exact hinv.dSR a hm h
      · rw [List.mem_singleton] at h; exact hne h
    · intro p hpm
      have h1 : p.1 ∈ st.starting := hinv.pendSub p hpm
      have h2 : p.1 ≠ n := by
        intro hc
        exact hp (by rw [← hc]; exact List.mem_map_of_mem Prod.fst hpm)
      exact (List.mem_erase_of_ne h2).mpr h1

theorem processCompletion_inv {st : St} {n : String} {c : Completion}
    (hinv : Inv st) (hn : n ∈ st.starting)
    (hp : n ∉ st.pending.map Prod.fst) :
    Inv (processCompletion st n c) := by
  cases c with
  | err e => exact inv_rejectOutcome hinv _
  | ok v => exact nextRound_inv (inv_mid v hinv hn hp)

theorem estep_inv {st st' : St} (h : EStep st st') (hinv : Inv st) : Inv st' := by
  cases h with
  | complete n c pre post hp =>
    have hmem : (n, c) ∈ st.pending := by
      rw [hp]; exact List.mem_append_right _ (List.mem_cons_self _ _)
    have hn : n ∈ st.starting := hinv.pendSub (n, c) hmem
    have hmid : (n :: (pre.map Prod.fst ++ post.map Prod.fst)).Nodup := by
      have := hinv.pendNodup
      rw [hp, List.map_append, List.map_cons] at this
      exact List.nodup_middle.mp this
    have hnp : n ∉ (pre ++ post).map Prod.fst := by
      rw [List.map_append]
      exact (List.nodup_cons.mp hmid).1
    have hinvm : Inv { st with pending := pre ++ post } := by
      refine ⟨hinv.servNodup, hinv.awaitSub, hinv.awaitNodup, hinv.startSub,
        hinv.startNodup, hinv.resSub, hinv.resNodup, hinv.dAS, hinv.dAR,
        hinv.dSR, ?_, ?_⟩
      · intro p hpm
        apply hinv.pendSub p
        rw [hp]
        rcases List.mem_append.mp hpm with h | h
        · exact List.mem_append_left _ h
        · exact List.mem_append_right _ (List.mem_cons_of_mem _ h)
      · rw [List.map_append]
        exact (List.nodup_cons.mp hmid).2
    exact processCompletion_inv hinvm hn hnp
  | timerFire n hmem =>
    apply inv_rejectOutcome
    exact ⟨hinv.servNodup, hinv.awaitSub, hinv.awaitNodup, hinv.startSub,
      hinv.startNodup, hinv.resSub, hinv.resNodup, hinv.dAS, hinv.dAR,
      hinv.dSR, hinv.pendSub, hinv.pendNodup⟩
  | regAddService st1 n spec hadd => exact addService_ok_inv hadd hinv
  | regAddDependency st1 n d a hadd => exact addDependency_ok_inv hadd hinv

theorem inv_init {cfg : Config} (h : (keys cfg.services).Nodup) :
    Inv (init cfg) := by
  refine ⟨h, fun a ha => ha, h, ?_, List.nodup_nil, ?_, List.nodup_nil,
    ?_, ?_, ?_, ?_, List.nodup_nil⟩
  · intro a ha; exact absurd ha (List.not_mem_nil a)
  · intro a ha; exact absurd ha (List.not_mem_nil a)
  · intro a _ hc; exact absurd hc (List.not_mem_nil a)
  · intro a _ hc; exact absurd hc (List.not_mem_nil a)
  · intro a ha; exact absurd ha (List.not_mem_nil a)
  · intro p hp; exact absurd hp (List.not_mem_nil p)

theorem inv_fillIgnored {st : St} (h : Inv st) : Inv (fillIgnored st) :=
  ⟨h.servNodup, h.awaitSub, h.awaitNodup, h.startSub, h.startNodup, h.resSub,
   h.resNodup, h.dAS, h.dAR, h.dSR, h.pendSub, h.pendNodup⟩

theorem inv_cleanAwaiting {st : St} (h : Inv st) : Inv (cleanAwaiting st) := by
  have hsub : (st.ignored.foldl spliceOut st.awaiting).Sublist st.awaiting :=
    foldl_spliceOut_sublist st.ignored st.awaiting
  refine ⟨h.servNodup, ?_, ?_, h.startSub, h.startNodup, h.resSub, h.resNodup,
    ?_, ?_, h.dSR, h.pendSub, h.pendNodup⟩
  · intro a ha; exact h.awaitSub (hsub.subset ha)
  · exact h.awaitNodup.sublist hsub
  · intro a ha; exact h.dAS a (hsub.subset ha)
  · intro a ha; exact h.dAR a (hsub.subset ha)

theorem inv_markExecuted {st : St} (h : Inv st) :
    Inv { st with executed := true } :=
  ⟨h.servNodup, h.awaitSub, h.awaitNodup, h.startSub, h.startNodup, h.resSub,
   h.resNodup, h.dAS, h.dAR, h.dSR, h.pendSub, h.pendNodup⟩

theorem execute_running_cases {st st1 : St} (h : execute st = .running st1) :
    st.executed = false ∧ checkConstraints st = none ∧
    st1 = nextRound { cleanAwaiting (fillIgnored st) with executed := true } := by
  rw [execute] at h
  split at h
  · cases h
  · rename_i hex
    have hex' : st.executed = false := by simpa using hex
    split at h
    · cases h
    · rename_i hc
      cases h
      exact ⟨hex', hc, rfl⟩

/-- C9: at every observable point of a run — the state `execute` hands to the
event loop, every state between completions and timer firings, and every
state between registry mutations performed from a running service — the three
pairwise intersections of `awaiting`, `starting` and the resolved keys are
empty. -/
theorem c9_pairwise_disjoint (cfg : Config) (st0 st : St)
    (hnd : (keys cfg.services).Nodup)
    (hex : execute (init cfg) = .running st0)
    (hr : Reach st0 st) :
    (∀ n ∈ st.awaiting, n ∉ st.starting) ∧
    (∀ n ∈ st.awaiting, n ∉ keys st.resolved) ∧
    (∀ n ∈ st.starting, n ∉ keys st.resolved) := by
  have hinv0 : Inv st0 := by
    rcases execute_running_cases hex with ⟨_, _, rfl⟩
    exact nextRound_inv (inv_markExecuted (inv_cleanAwaiting
      (inv_fillIgnored (inv_init hnd))))
  have hinv : Inv st := by
    induction hr with
    | refl => exact hinv0
    | tail hs hstep ih => exact estep_inv hstep ih
  exact ⟨hinv.dAS, hinv.dAR, hinv.dSR⟩

/-- Witness: the state `execute` produces for scenario A satisfies the three
disjointness properties. -/
theorem c9_pairwise_disjoint_witness :
    (∀ n ∈ (runToEnd cfgA 0).awaiting, n ∉ (runToEnd cfgA 0).starting) ∧
    (∀ n ∈ (runToEnd cfgA 0).awaiting, n ∉ keys (runToEnd cfgA 0).resolved) ∧
    (∀ n ∈ (runToEnd cfgA 0).starting, n ∉ keys (runToEnd cfgA 0).resolved) :=
  c9_pairwise_disjoint cfgA (runToEnd cfgA 0) (runToEnd cfgA 0) (by decide)
    rfl Relation.ReflTransGen.refl

/-! The benign synchronous fragment: modules with no registry effects and a
plain produced value, the exact semantics of the repository's synchronous
test scenarios. -/

theorem resolveOutcome_of_none {st : St} (h : st.outcome = none) :
    (resolveOutcome st).outcome = some (.ok st.resolved) := by
  rw [resolveOutcome, if_neg (by rw [h]; exact Bool.false_ne_true)]

theorem resolveOutcome_ok_of_none {st : St} (h : st.outcome = none) :
    (resolveOutcome st).outcome = some (.ok (resolveOutcome st).resolved) := by
  rw [resolveOutcome_eq_withOutcome, withOutcome_outcome, withOutcome_resolved, h]
  rfl

theorem foldl_erase_sublist (S : List String) :
    ∀ l : List String, (S.foldl List.erase l).Sublist l := by
  induction S with
  | nil => intro l; exact List.Sublist.refl l
  | cons n rest ih =>
    intro l
    rw [List.foldl_cons]
    exact (ih (l.erase n)).trans (l.erase_sublist n)

theorem foldl_erase_mem (S : List String) :
    ∀ l : List String, l.Nodup → ∀ x,
      (x ∈ S.foldl List.erase l ↔ x ∈ l ∧ x ∉ S) := by
  induction S with
  | nil => intro l _ x; simp
  | cons n rest ih =>
    intro l hnd x
    rw [List.foldl_cons, ih (l.erase n) (hnd.erase n) x, hnd.mem_erase_iff]
    constructor
    · rintro ⟨⟨hxn, hxl⟩, hxr⟩
      exact ⟨hxl, by simp [hxn, hxr]⟩
    · rintro ⟨hxl, hxm⟩
      simp only [List.mem_cons, not_or] at hxm
      exact ⟨⟨hxm.1, hxl⟩, hxm.2⟩

theorem foldl_erase_length (S : List String) :
    ∀ l : List String, l.Nodup → S.Nodup → S ⊆ l →
      (S.foldl List.erase l).length = l.length - S.length := by
  induction S with
  | nil => intro l _ _ _; rfl
  | cons n rest ih =>
    intro l hld hsd hsub
    rw [List.foldl_cons]
    have hn : n ∈ l := hsub (List.mem_cons_self _ _)
    have hrest : rest ⊆ l.erase n := by
      intro m hm
      refine (List.mem_erase_of_ne (fun hc => ?_)).mpr
        (hsub (List.mem_cons_of_mem _ hm))
      exact (List.nodup_cons.mp hsd).1 (by rw [← hc]; exact hm)
    rw [ih (l.erase n) (hld.erase n) (List.nodup_cons.mp hsd).2 hrest,
      List.length_erase_of_mem hn, List.length_cons]
    omega

theorem roundAdvance_nil (st : St) : roundAdvance st [] = st := by
  rw [roundAdvance]
  rw [show st.starting ++ ([] : List String) = st.starting from
    List.append_nil _]
  rw [show st.timers ++ ([] : List String) = st.timers from List.append_nil _]
  rw [show st.pending ++ (([] : List String)).map
      (fun n => (n, Completion.ok (benignValue st.services n))) = st.pending by
    rw [List.map_nil, List.append_nil]]
  rfl

/-- A ready benign service's activation, spelled out: mark it starting,
splice it from `awaiting`, arm its timer, and schedule its completion. -/
theorem startService_benign {st : St} {n : String} {spec : Spec}
    {v : Option Value} (hmod : spec.module = some (.mk [] (.value v))) :
    startService st n spec =
      { st with starting := keyInsert st.starting n
                awaiting := spliceOut st.awaiting n
                timers := st.timers ++ [n]
                pending := st.pending ++ [(n, .ok v)] } := by
  cases spec with
  | mk d i m l =>
    have hm : m = some (.mk [] (.value v)) := hmod
    subst hm
    rfl

/-- One full scan over the awaiting services of a benign state: some
duplicate-free subsequence `S` of `awaiting` is started — every member of `S`
was ready against the (unchanged) resolved map — the state advances by
exactly `S`, and when nothing started, every service from the scan position
on was blocked. -/
theorem roundLoop_benign :
    ∀ (fuel : Nat) (st : St) (i c : Nat),
      st.outcome = none →
      (∀ n ∈ st.awaiting, ∃ spec, st.services.lookup n = some spec) →
      (∀ n ∈ st.awaiting, ∀ spec, st.services.lookup n = some spec →
        spec.module = some (.mk [] (.value (benignValue st.services n)))) →
      (∀ n ∈ st.awaiting, ∀ spec, st.services.lookup n = some spec →
        ∀ d ∈ getDependencyNames spec,
          d ∉ st.ignored ∧ hasKey st.services d = true) →
      st.awaiting.Nodup →
      (∀ n ∈ st.awaiting, n ∉ st.starting) →
      st.awaiting.length ≤ i + fuel →
      ∃ S, S ⊆ st.awaiting ∧ S.Nodup ∧
        roundLoop st i c fuel = (roundAdvance st S, c + S.length) ∧
        (∀ n ∈ S, ∀ spec, st.services.lookup n = some spec →
          depsResolved st spec = true) ∧
        (S = [] → ∀ n ∈ st.awaiting.drop i, ∀ spec,
          st.services.lookup n = some spec → depsResolved st spec = false) := by
  intro fuel
  induction fuel with
  | zero =>
    intro st i c _ _ _ _ _ _ hlen
    refine ⟨[], fun x hx => absurd hx (List.not_mem_nil x), List.nodup_nil,
      by rw [roundAdvance_nil]; rfl, fun n hn => absurd hn (List.not_mem_nil n),
      fun _ => ?_⟩
    rw [List.drop_eq_nil_of_le (by omega)]
    intro n hn
    exact absurd hn (List.not_mem_nil n)
  | succ fuel ih =>
    intro st i c hout hlook hmod hnf hnd hdisj hlen
    rw [roundLoop]
    by_cases hi : i < st.awaiting.length
    · rw [dif_pos hi]
      have hnm : st.awaiting.get ⟨i, hi⟩ ∈ st.awaiting := st.awaiting.get_mem i hi
      obtain ⟨spec, hl⟩ := hlook _ hnm
      rw [hl]
      dsimp only
      rw [checkDependencies_fst]
      rw [checkDependencies_nofatal hout (hnf _ hnm spec hl)]
      by_cases hready : depsResolved st spec = true
      · rw [if_pos hready]
        rw [startService_benign (hmod _ hnm spec hl)]
        rw [show keyInsert st.starting (st.awaiting.get ⟨i, hi⟩) =
            st.starting ++ [st.awaiting.get ⟨i, hi⟩] from if_neg (hdisj _ hnm)]
        rw [spliceOut_of_mem hnm]
        obtain ⟨S', hsub', hnd', heq', hready', _⟩ :=
          ih { st with
              starting := st.starting ++ [st.awaiting.get ⟨i, hi⟩]
              awaiting := st.awaiting.erase (st.awaiting.get ⟨i, hi⟩)
              timers := st.timers ++ [st.awaiting.get ⟨i, hi⟩]
              pending := st.pending ++ [(st.awaiting.get ⟨i, hi⟩,
                .ok (benignValue st.services (st.awaiting.get ⟨i, hi⟩)))] }
            (i + 1) (c + 1) hout
            (fun n hn => hlook n ((st.awaiting.erase_sublist _).subset hn))
            (fun n hn => hmod n ((st.awaiting.erase_sublist _).subset hn))
            (fun n hn => hnf n ((st.awaiting.erase_sublist _).subset hn))
            (hnd.erase _)
            (fun n hn => by
              rcases hnd.mem_erase_iff.mp hn with ⟨hne, hmem⟩
              intro hc
              rcases List.mem_append.mp hc with h | h
              · exact hdisj n hmem h
              · rw [List.mem_singleton] at h; exact hne h)
            (by
              have : (st.awaiting.erase (st.awaiting.get ⟨i, hi⟩)).length =
                  st.awaiting.length - 1 := List.length_erase_of_mem hnm
              rw [this]; omega)
        refine ⟨st.awaiting.get ⟨i, hi⟩ :: S', ?_, ?_, ?_, ?_, ?_⟩
        · intro x hx
          rcases List.mem_cons.mp hx with h | h
          · rw [h]; exact hnm
          · exact (st.awaiting.erase_sublist _).subset (hsub' h)
        · rw [List.nodup_cons]
          refine ⟨fun hc => ?_, hnd'⟩
          rcases hnd.mem_erase_iff.mp (hsub' hc) with ⟨hne, _⟩
          exact hne rfl
        · rw [heq']
          refine congrArg₂ Prod.mk ?_ (by rw [List.length_cons]; omega)
          rw [roundAdvance, roundAdvance]
          simp only [List.append_assoc, List.singleton_append, List.map_cons]
          rfl
        · intro n hn spec' hl'
          rcases List.mem_cons.mp hn with h | h
          · subst h
            rw [hl] at hl'
            cases hl'
            exact hready
          · exact hready' n h spec' hl'
        · intro habs
          exact absurd habs (List.cons_ne_nil _ _)
      · rw [if_neg hready]
        obtain ⟨S, hsub, hndS, heq, hreadyS, hblocked⟩ :=
          ih st (i + 1) c hout hlook hmod hnf hnd hdisj (by omega)
        refine ⟨S, hsub, hndS, heq, hreadyS, ?_⟩
        intro hS n hn spec' hl'
        have hdrop : st.awaiting.drop i =
            st.awaiting.get ⟨i, hi⟩ :: st.awaiting.drop (i + 1) :=
          (List.get_cons_drop st.awaiting ⟨i, hi⟩).symm
        rw [hdrop] at hn
        rcases List.mem_cons.mp hn with h | h
        · subst h
          rw [hl] at hl'
          cases hl'
          exact Bool.eq_false_iff.mpr hready
        · exact hblocked hS n h spec' hl'
    · rw [dif_neg hi]
      refine ⟨[], fun x hx => absurd hx (List.not_mem_nil x), List.nodup_nil,
        by rw [roundAdvance_nil]; rfl,
        fun n hn => absurd hn (List.not_mem_nil n), fun _ => ?_⟩
      rw [List.drop_eq_nil_of_le (by omega)]
      intro n hn
      exact absurd hn (List.not_mem_nil n)

theorem mem_ignoredNames {sv : List (String × Spec)} {x : String} :
    x ∈ ignoredNames sv ↔ ∃ spec, (x, spec) ∈ sv ∧ spec.ignore = true := by
  rw [ignoredNames]
  constructor
  · intro h
    rcases List.mem_map.mp h with ⟨p, hp, hfst⟩
    rcases List.mem_filter.mp hp with ⟨hmem, hflag⟩
    exact ⟨p.2, by rw [← hfst]; exact hmem, by simpa using hflag⟩
  · rintro ⟨spec, hmem, hflag⟩
    exact List.mem_map.mpr ⟨(x, spec),
      List.mem_filter.mpr ⟨hmem, by simpa using hflag⟩, rfl⟩

theorem mem_nonIgnoredNames {sv : List (String × Spec)} {x : String} :
    x ∈ nonIgnoredNames sv ↔ ∃ spec, (x, spec) ∈ sv ∧ spec.ignore = false := by
  rw [nonIgnoredNames]
  constructor
  · intro h
    rcases List.mem_map.mp h with ⟨p, hp, hfst⟩
    rcases List.mem_filter.mp hp with ⟨hmem, hflag⟩
    exact ⟨p.2, by rw [← hfst]; exact hmem, by simpa using hflag⟩
  · rintro ⟨spec, hmem, hflag⟩
    exact List.mem_map.mpr ⟨(x, spec),
      List.mem_filter.mpr ⟨hmem, by simpa using hflag⟩, rfl⟩

theorem keys_nodup_unique {sv : List (String × Spec)}
    (hnd : (keys sv).Nodup) {x : String} {a b : Spec}
    (ha : (x, a) ∈ sv) (hb : (x, b) ∈ sv) : a = b := by
  induction sv with
  | nil => exact absurd ha (List.not_mem_nil _)
  | cons p rest ih =>
    have hnd' : (keys rest).Nodup := (List.nodup_cons.mp hnd).2
    have hhead : p.1 ∉ keys rest := (List.nodup_cons.mp hnd).1
    rcases List.mem_cons.mp ha with ha' | ha' <;>
      rcases List.mem_cons.mp hb with hb' | hb'
    · exact congrArg Prod.snd (ha'.trans hb'.symm)
    · exfalso
      apply hhead
      have hx : x ∈ keys rest := List.mem_map_of_mem Prod.fst hb'
      rw [← ha']
      exact hx
    · exfalso
      apply hhead
      have hx : x ∈ keys rest := List.mem_map_of_mem Prod.fst ha'
      rw [← hb']
      exact hx
    · exact ih hnd' ha' hb'

theorem goodrun_flag_false {st : St} (hg : GoodRun st) {n : String}
    {spec : Spec} (hl : st.services.lookup n = some spec)
    (hn : n ∉ st.ignored) : spec.ignore = false := by
  cases hflag : spec.ignore with
  | false => rfl
  | true =>
    exfalso
    apply hn
    rw [hg.ignEq]
    exact mem_ignoredNames.mpr ⟨spec, lookup_mem hl, hflag⟩

theorem goodrun_dep_ok {st : St} (hg : GoodRun st) {n : String} {spec : Spec}
    (hl : st.services.lookup n = some spec) (hflag : spec.ignore = false) :
    ∀ d ∈ getDependencyNames spec,
      (∃ s, st.services.lookup d = some s ∧ s.ignore = false) ∧
      d ∉ st.ignored := by
  intro d hd
  have hall := (List.all_eq_true.mp hg.refsOk) (n, spec) (lookup_mem hl)
  rw [Bool.or_eq_true] at hall
  rcases hall with hbad | hdeps
  · rw [hflag] at hbad; cases hbad
  · have := (List.all_eq_true.mp hdeps) d hd
    cases hld : st.services.lookup d with
    | none => rw [hld] at this; cases this
    | some s =>
      rw [hld] at this
      dsimp only at this
      rw [decide_eq_true_eq] at this
      have hsf : s.ignore = false := by
        cases hsi : s.ignore with
        | false => rfl
        | true => exact absurd hsi this
      refine ⟨⟨s, rfl, hsf⟩, fun hc => ?_⟩
      rw [hg.ignEq] at hc
      rcases mem_ignoredNames.mp hc with ⟨s', hmem', hflag'⟩
      rw [keys_nodup_unique hg.inv.servNodup hmem' (lookup_mem hld)] at hflag'
      rw [hflag'] at hsf
      cases hsf

theorem benign_spec_shape {sv : List (String × Spec)}
    (hben : benignServices sv = true) {n : String} {spec : Spec}
    (hmem : (n, spec) ∈ sv) :
    ∃ v, spec.module = some (.mk [] (.value v)) := by
  have := (List.all_eq_true.mp hben) (n, spec) hmem
  cases spec with
  | mk d i m l =>
    cases m with
    | none => cases this
    | some mf =>
      cases mf with
      | mk effs res =>
        cases effs with
        | nil =>
          cases res with
          | value v => exact ⟨v, rfl⟩
          | promise r => cases this
          | throws e => cases this
        | cons op rest => cases this

theorem goodrun_module {st : St} (hg : GoodRun st) {n : String} {spec : Spec}
    (hl : st.services.lookup n = some spec) :
    spec.module = some (.mk [] (.value (benignValue st.services n))) := by
  rcases benign_spec_shape hg.benign (lookup_mem hl) with ⟨v, hv⟩
  have hbv : benignValue st.services n = v := by
    rw [benignValue, hl]
    cases spec with
    | mk d i m l =>
      have hv' : m = some (.mk [] (.value v)) := hv
      subst hv'
      rfl
  rw [hbv]
  exact hv

theorem exists_min_rank (rank : String → Nat) :
    ∀ l : List String, l ≠ [] → ∃ m ∈ l, ∀ a ∈ l, rank m ≤ rank a := by
  intro l
  induction l with
  | nil => intro h; exact absurd rfl h
  | cons x xs ih =>
    intro _
    cases hxs : xs with
    | nil =>
      refine ⟨x, List.mem_cons_self _ _, ?_⟩
      intro a ha
      rw [List.mem_singleton] at ha
      rw [ha]
    | cons y ys =>
      obtain ⟨m, hm, hmin⟩ := ih (by rw [hxs]; exact List.cons_ne_nil _ _)
      rw [← hxs] at *
      by_cases hle : rank x ≤ rank m
      · refine ⟨x, List.mem_cons_self _ _, ?_⟩
        intro a ha
        rcases List.mem_cons.mp ha with h | h
        · rw [h]
        · exact hle.trans (hmin a h)
      · refine ⟨m, List.mem_cons_of_mem _ hm, ?_⟩
        intro a ha
        rcases List.mem_cons.mp ha with h | h
        · rw [h]; omega
        · exact hmin a h

/-- Deadlock is impossible for an acyclic benign state: if nothing is
mid-flight and something awaits, some awaiting service is ready. -/
theorem no_deadlock {st : St} (hg : GoodRun st) {rank : String → Nat}
    (hrk : RankOk rank st.services) (hstart : st.starting = [])
    (hne : st.awaiting ≠ [])
    (hblocked : ∀ n ∈ st.awaiting, ∀ spec, st.services.lookup n = some spec →
      depsResolved st spec = false) : False := by
  obtain ⟨m, hm, hmin⟩ := exists_min_rank rank st.awaiting hne
  obtain ⟨spec, hl⟩ := lookup_isSome_of_mem (hg.inv.awaitSub hm)
  have hflag : spec.ignore = false :=
    goodrun_flag_false hg hl (hg.awaitNotIgn m hm)
  have hbl := hblocked m hm spec hl
  rw [depsResolved] at hbl
  rcases List.all_eq_false.mp hbl with ⟨d, hd, hdr⟩
  rcases goodrun_dep_ok hg hl hflag d hd with ⟨⟨s, hls, _⟩, hdnotign⟩
  have hdk : d ∈ keys st.services := by
    rw [mem_keys_iff_lookup, hls]; rfl
  rcases hg.conserve d hdk hdnotign with hda | hds | hdr'
  · have hlt : rank d < rank m := hrk (m, spec) (lookup_mem hl) hflag d hd
    have hge := hmin d hda
    omega
  · rw [hstart] at hds
    exact absurd hds (List.not_mem_nil d)
  · rw [← hasKey_iff] at hdr'
    simp at hdr
    rw [hdr'] at hdr
    cases hdr

/-- The three possible effects of one `nextRound` call on a benign acyclic
state: settle successfully (everything done), start a non-empty batch of
ready services, or change nothing because completions are still in flight —
deadlock is impossible. -/
theorem round_dispatch {st : St} (hg : GoodRun st) {rank : String → Nat}
    (hrk : RankOk rank st.services) :
    (st.awaiting = [] ∧ st.starting = [] ∧
      nextRound st = resolveOutcome { st with started := true }) ∨
    (∃ S, S ≠ [] ∧ S ⊆ st.awaiting ∧ S.Nodup ∧
      (∀ n ∈ S, ∀ spec, st.services.lookup n = some spec →
        depsResolved st spec = true) ∧
      nextRound st = roundAdvance st S) ∨
    (st.starting ≠ [] ∧ nextRound st = st) := by
  obtain ⟨S, hsub, hndS, heq, hready, hblocked⟩ :=
    roundLoop_benign (roundFuel st) st 0 0 hg.outcomeNone
      (fun n hn => lookup_isSome_of_mem (hg.inv.awaitSub hn))
      (fun n hn spec hl => goodrun_module hg hl)
      (fun n hn spec hl d hd => by
        rcases goodrun_dep_ok hg hl
          (goodrun_flag_false hg hl (hg.awaitNotIgn n hn)) d hd with
          ⟨⟨s, hls, _⟩, hdnotign⟩
        refine ⟨hdnotign, ?_⟩
        rw [hasKey, hls]
        rfl)
      hg.inv.awaitNodup hg.inv.dAS
      (by rw [roundFuel]; omega)
  by_cases hSe : S = []
  · rw [hSe, roundAdvance_nil] at heq
    by_cases hstart : st.starting = []
    · by_cases hawait : st.awaiting = []
      · left
        refine ⟨hawait, hstart, ?_⟩
        rw [nextRound, heq]
        dsimp only
        rw [if_pos ⟨hawait, hstart⟩]
      · exfalso
        exact no_deadlock hg hrk hstart hawait
          (fun n hn => hblocked hSe n (by rw [List.drop_zero]; exact hn))
    · right; right
      refine ⟨hstart, ?_⟩
      rw [nextRound, heq]
      dsimp only
      rw [if_neg (fun hc => hstart hc.2), if_neg (fun hc => hstart hc.2)]
  · right; left
    refine ⟨S, hSe, hsub, hndS, hready, ?_⟩
    have hstne : (roundAdvance st S).starting ≠ [] := by
      rw [roundAdvance]
      intro hc
      rcases List.append_eq_nil.mp hc with ⟨_, hS0⟩
      exact hSe hS0
    have hcne : ¬ (0 + S.length = 0 ∧ (roundAdvance st S).starting = []) := by
      rintro ⟨hlen0, _⟩
      rw [Nat.zero_add] at hlen0
      exact hSe (List.length_eq_zero.mp hlen0)
    rw [nextRound, heq]
    dsimp only
    rw [if_neg (fun hc => hstne hc.2), if_neg hcne]

/-- GoodRun facts for the state a batch of ready starts produces. -/
theorem goodrun_roundAdvance {st : St} (hg : GoodRun st) {S : List String}
    (hsub : S ⊆ st.awaiting) (hndS : S.Nodup)
    (hready : ∀ n ∈ S, ∀ spec, st.services.lookup n = some spec →
      depsResolved st spec = true)
    (hinv : Inv (roundAdvance st S)) : GoodRun (roundAdvance st S) := by
  have hmapfst : (S.map (fun n =>
      (n, Completion.ok (benignValue st.services n)))).map Prod.fst = S := by
    rw [List.map_map]
    exact List.map_id'' (fun n => rfl) S
  refine ⟨hinv, hg.benign, hg.refsOk, hg.ignEq, ?_, ?_, hg.resNotIgn, ?_, ?_,
    ?_, ?_, ?_, hg.outcomeNone⟩
  · intro n hn
    exact hg.awaitNotIgn n ((foldl_erase_sublist S st.awaiting).subset hn)
  · intro n hn
    rcases List.mem_append.mp hn with h | h
    · exact hg.startNotIgn n h
    · exact hg.awaitNotIgn n (hsub h)
  · intro n hk hnig
    rcases hg.conserve n hk hnig with ha | hs | hr
    · by_cases hmem : n ∈ S
      · exact Or.inr (Or.inl (List.mem_append_right _ hmem))
      · exact Or.inl ((foldl_erase_mem S st.awaiting hg.inv.awaitNodup n).mpr
          ⟨ha, hmem⟩)
    · exact Or.inr (Or.inl (List.mem_append_left _ hs))
    · exact Or.inr (Or.inr hr)
  · show ((st.pending ++ _).map Prod.fst).Perm (st.starting ++ S)
    rw [List.map_append, hmapfst]
    exact hg.pendPerm.append_right S
  · intro p hp
    rcases List.mem_append.mp hp with h | h
    · exact hg.pendOk p h
    · rcases List.mem_map.mp h with ⟨m, _, hm⟩
      exact ⟨benignValue st.services m, by rw [← hm]⟩
  · intro p hp
    rcases List.mem_append.mp hp with h | h
    · exact hg.pendVal p h
    · rcases List.mem_map.mp h with ⟨m, _, hm⟩
      rw [← hm]
      rfl
  · intro n hn spec hl d hd
    show d ∈ keys st.resolved
    rcases hn with hn | hn
    · rcases List.mem_append.mp hn with h | h
      · exact hg.orderInv n (Or.inl h) spec hl d hd
      · have := hready n h spec hl
        rw [depsResolved] at this
        rw [← hasKey_iff]
        exact List.all_eq_true.mp this d hd
    · exact hg.orderInv n (Or.inr hn) spec hl d hd

/-- GoodRun facts for the state right after one activation's completion has
been recorded, before its next round runs. -/
theorem goodrun_mid {st : St} (hg : GoodRun st) {n : String} {c : Completion}
    {rest : List (String × Completion)} (hp : st.pending = (n, c) :: rest) :
    GoodRun { st with
      pending := rest
      timers := st.timers.erase n
      starting := st.starting.erase n
      resolved := objSet st.resolved n
        ((benignValue st.services n).getD Value.emptyObj)
      teardown := objSet st.teardown n
        (((benignValue st.services n).getD Value.emptyObj)).shutdownAction } := by
  have hmem : (n, c) ∈ st.pending := by
    rw [hp]; exact List.mem_cons_self _ _
  have hn : n ∈ st.starting := hg.inv.pendSub (n, c) hmem
  have hnodupfst : (n :: rest.map Prod.fst).Nodup := by
    have := hg.inv.pendNodup
    rw [hp, List.map_cons] at this
    exact this
  have hnrest : n ∉ rest.map Prod.fst := (List.nodup_cons.mp hnodupfst).1
  have hperm : (n :: rest.map Prod.fst).Perm st.starting := by
    have := hg.pendPerm
    rw [hp, List.map_cons] at this
    exact this
  have hkeys : keys (objSet st.resolved n
      ((benignValue st.services n).getD Value.emptyObj)) =
      keys st.resolved ++ [n] :=
    keys_objSet_of_not_mem _ (hg.inv.dSR n hn)
  have hinvbase : Inv { st with pending := rest } := by
    refine ⟨hg.inv.servNodup, hg.inv.awaitSub, hg.inv.awaitNodup,
      hg.inv.startSub, hg.inv.startNodup, hg.inv.resSub, hg.inv.resNodup,
      hg.inv.dAS, hg.inv.dAR, hg.inv.dSR, ?_, ?_⟩
    · intro p hpm
      exact hg.inv.pendSub p (by rw [hp]; exact List.mem_cons_of_mem _ hpm)
    · exact (List.nodup_cons.mp hnodupfst).2
  refine ⟨inv_mid (benignValue st.services n) hinvbase hn hnrest,
    hg.benign, hg.refsOk, hg.ignEq, hg.awaitNotIgn, ?_, ?_, ?_, ?_, ?_, ?_,
    ?_, hg.outcomeNone⟩
  · intro m hm
    exact hg.startNotIgn m ((st.starting.erase_sublist n).subset hm)
  · intro m hm
    rw [hkeys] at hm
    rcases List.mem_append.mp hm with h | h
    · exact hg.resNotIgn m h
    · rw [List.mem_singleton] at h; subst h; exact hg.startNotIgn m hn
  · intro m hk hnig
    rcases hg.conserve m hk hnig with ha | hs | hr
    · exact Or.inl ha
    · by_cases hmn : m = n
      · subst hmn
        refine Or.inr (Or.inr ?_)
        rw [hkeys]
        exact List.mem_append_right _ (List.mem_singleton_self m)
      · exact Or.inr (Or.inl ((List.mem_erase_of_ne hmn).mpr hs))
    · refine Or.inr (Or.inr ?_)
      rw [hkeys]
      exact List.mem_append_left _ hr
  · show (rest.map Prod.fst).Perm (st.starting.erase n)
    have h1 : st.starting.Perm (n :: st.starting.erase n) :=
      List.perm_cons_erase hn
    exact (hperm.trans h1).cons_inv
  · intro p hpm
    exact hg.pendOk p (by rw [hp]; exact List.mem_cons_of_mem _ hpm)
  · intro p hpm
    exact hg.pendVal p (by rw [hp]; exact List.mem_cons_of_mem _ hpm)
  · intro m hm spec hl d hd
    show d ∈ keys (objSet st.resolved n
      ((benignValue st.services n).getD Value.emptyObj))
    rw [hkeys]
    rcases hm with hm | hm
    · exact List.mem_append_left _
        (hg.orderInv m (Or.inl ((st.starting.erase_sublist n).subset hm))
          spec hl d hd)
    · rw [hkeys] at hm
      rcases List.mem_append.mp hm with h | h
      · exact List.mem_append_left _ (hg.orderInv m (Or.inr h) spec hl d hd)
      · rw [List.mem_singleton] at h
        subst h
        exact List.mem_append_left _ (hg.orderInv m (Or.inl hn) spec hl d hd)

/-- When a benign run has nothing awaiting and nothing starting, the resolved
keys are exactly the non-ignored declared services. -/
theorem goodrun_final_resolved {st : St} (hg : GoodRun st)
    (ha : st.awaiting = []) (hs : st.starting = []) :
    ∀ x, x ∈ keys st.resolved ↔ x ∈ nonIgnoredNames st.services := by
  intro x
  constructor
  · intro hx
    obtain ⟨spec, hl⟩ := lookup_isSome_of_mem (hg.inv.resSub hx)
    exact mem_nonIgnoredNames.mpr ⟨spec, lookup_mem hl,
      goodrun_flag_false hg hl (hg.resNotIgn x hx)⟩
  · intro hx
    rcases mem_nonIgnoredNames.mp hx with ⟨spec, hmem, hflag⟩
    have hk : x ∈ keys st.services := List.mem_map_of_mem Prod.fst hmem
    have hnig : x ∉ st.ignored := by
      rw [hg.ignEq]
      intro hc
      rcases mem_ignoredNames.mp hc with ⟨spec', hmem', hflag'⟩
      rw [keys_nodup_unique hg.inv.servNodup hmem' hmem] at hflag'
      rw [hflag'] at hflag
      cases hflag
    rcases hg.conserve x hk hnig with h | h | h
    · rw [ha] at h; exact absurd h (List.not_mem_nil x)
    · rw [hs] at h; exact absurd h (List.not_mem_nil x)
    · exact h

theorem runSteps_frozen {st : St} (h : st.pending = []) :
    ∀ j, runSteps st j = st := by
  have hstep : stepEventLoop st = st := by
    rw [stepEventLoop, h]
  intro j
  induction j with
  | zero => rfl
  | succ j ih => rw [runSteps, hstep, ih]

theorem nodup_subset_length :
    ∀ (S l : List String), S.Nodup → S ⊆ l → S.length ≤ l.length := by
  intro S
  induction S with
  | nil => intro l _ _; exact Nat.zero_le _
  | cons n S' ih =>
    intro l hnd hsub
    have hn : n ∈ l := hsub (List.mem_cons_self _ _)
    have hS' : S' ⊆ l.erase n := by
      intro m hm
      refine (List.mem_erase_of_ne (fun hc => ?_)).mpr
        (hsub (List.mem_cons_of_mem _ hm))
      exact (List.nodup_cons.mp hnd).1 (by rw [← hc]; exact hm)
    have := ih (l.erase n) (List.nodup_cons.mp hnd).2 hS'
    have hlen := List.length_erase_of_mem hn
    have hpos := List.length_pos.mpr (List.ne_nil_of_mem hn)
    rw [List.length_cons]
    omega

/-- One deterministic event-loop turn of a benign acyclic state with a
pending completion: either the run settles successfully with the full
non-ignored resolved mapping, or the state stays good with one fewer
unresolved service and a non-empty queue. -/
theorem step_benign {st : St} (hg : GoodRun st) {rank : String → Nat}
    (hrk : RankOk rank st.services) (hpne : st.pending ≠ []) :
    ((stepEventLoop st).outcome = some (.ok (stepEventLoop st).resolved) ∧
     (stepEventLoop st).pending = [] ∧
     (stepEventLoop st).services = st.services ∧
     (keys (stepEventLoop st).resolved).Nodup ∧
     (∀ x, x ∈ keys (stepEventLoop st).resolved ↔
       x ∈ nonIgnoredNames st.services) ∧
     depsBeforeStart (stepEventLoop st)) ∨
    (GoodRun (stepEventLoop st) ∧
     measure (stepEventLoop st) + 1 = measure st ∧
     (stepEventLoop st).pending ≠ [] ∧
     (stepEventLoop st).services = st.services) := by
  cases hp : st.pending with
  | nil => exact absurd hp hpne
  | cons pc rest =>
    cases pc with
    | mk n c =>
      have hcv : c = Completion.ok (benignValue st.services n) :=
        hg.pendVal (n, c) (by rw [hp]; exact List.mem_cons_self _ _)
      have hn : n ∈ st.starting :=
        hg.inv.pendSub (n, c) (by rw [hp]; exact List.mem_cons_self _ _)
      have hg1 : GoodRun { st with
          pending := rest
          timers := st.timers.erase n
          starting := st.starting.erase n
          resolved := objSet st.resolved n
            ((benignValue st.services n).getD Value.emptyObj)
          teardown := objSet st.teardown n
            (((benignValue st.services n).getD Value.emptyObj)).shutdownAction } :=
        goodrun_mid hg hp
      have hstep : stepEventLoop st = nextRound { st with
          pending := rest
          timers := st.timers.erase n
          starting := st.starting.erase n
          resolved := objSet st.resolved n
            ((benignValue st.services n).getD Value.emptyObj)
          teardown := objSet st.teardown n
            (((benignValue st.services n).getD Value.emptyObj)).shutdownAction } := by
        rw [stepEventLoop, hp, hcv]
        rfl
      have hmeas : measure st = st.awaiting.length + st.starting.length := rfl
      have herase : (st.starting.erase n).length = st.starting.length - 1 :=
        List.length_erase_of_mem hn
      have hstpos : 0 < st.starting.length :=
        List.length_pos.mpr (List.ne_nil_of_mem hn)
      rcases round_dispatch hg1 hrk with
        ⟨ha, hs, heq⟩ | ⟨S, hSne, hsub, hndS, hready, heq⟩ | ⟨hsne, heq⟩
      · left
        rw [hstep, heq]
        have hrestnil : rest = [] := by
          have hperm := hg1.pendPerm
          rw [hs] at hperm
          exact List.map_eq_nil_iff.mp hperm.eq_nil
        have houtnone : ({ st with
            pending := rest
            timers := st.timers.erase n
            starting := st.starting.erase n
            resolved := objSet st.resolved n
              ((benignValue st.services n).getD Value.emptyObj)
            teardown := objSet st.teardown n
              (((benignValue st.services n).getD Value.emptyObj)).shutdownAction
            started := true } : St).outcome = none := hg1.outcomeNone
        refine ⟨?_, ?_, ?_, ?_, ?_, ?_⟩
        · exact resolveOutcome_ok_of_none houtnone
        · rw [resolveOutcome_eq_withOutcome, withOutcome_pending]
          exact hrestnil
        · rw [resolveOutcome_eq_withOutcome, withOutcome_services]
        · rw [resolveOutcome_eq_withOutcome, withOutcome_resolved]
          exact hg1.inv.resNodup
        · intro x
          rw [resolveOutcome_eq_withOutcome, withOutcome_resolved]
          exact goodrun_final_resolved hg1 ha hs x
        · rw [resolveOutcome_eq_withOutcome]
          exact hg1.orderInv
      · right
        have hinvadv : Inv (roundAdvance { st with
            pending := rest
            timers := st.timers.erase n
            starting := st.starting.erase n
            resolved := objSet st.resolved n
              ((benignValue st.services n).getD Value.emptyObj)
            teardown := objSet st.teardown n
              (((benignValue st.services n).getD Value.emptyObj)).shutdownAction } S) := by
          rw [← heq]
          exact nextRound_inv hg1.inv
        have hgadv := goodrun_roundAdvance hg1 hsub hndS hready hinvadv
        rw [hstep, heq]
        refine ⟨hgadv, ?_, ?_, rfl⟩
        · show (S.foldl List.erase st.awaiting).length +
            (((st.starting.erase n) ++ S)).length + 1 =
            st.awaiting.length + st.starting.length
          rw [foldl_erase_length S st.awaiting hg.inv.awaitNodup hndS hsub,
            List.length_append, herase]
          have hSle : S.length ≤ st.awaiting.length :=
            nodup_subset_length S st.awaiting hndS hsub
          omega
        · intro hc
          rcases List.append_eq_nil.mp hc with ⟨_, hmap⟩
          exact hSne (List.map_eq_nil_iff.mp hmap)
      · right
        rw [hstep, heq]
        have hrestne : rest ≠ [] := by
          intro hc
          apply hsne
          have hperm := hg1.pendPerm
          rw [hc] at hperm
          exact (hperm.symm.eq_nil)
        exact ⟨hg1, by
          show st.awaiting.length + (st.starting.erase n).length + 1 =
            st.awaiting.length + st.starting.length
          omega, hrestne, rfl⟩

theorem lookup_of_mem_nodup {α : Type} {l : List (String × α)}
    (hnd : (keys l).Nodup) {n : String} {v : α} (h : (n, v) ∈ l) :
    l.lookup n = some v := by
  induction l with
  | nil => exact absurd h (List.not_mem_nil _)
  | cons p xs ih =>
    cases p with
    | mk a b =>
      rcases List.mem_cons.mp h with hh | ht
      · cases hh
        rw [List.lookup, beq_self_eq_true]
      · have hane : n ≠ a := by
          intro hc
          have hmem : n ∈ keys xs := List.mem_map_of_mem Prod.fst ht
          exact (List.nodup_cons.mp hnd).1 (hc ▸ hmem)
        rw [List.lookup, beq_false_of_ne hane]
        exact ih (List.nodup_cons.mp hnd).2 ht

theorem filter_map_fst {α : Type} (p : String → Bool) :
    ∀ l : List (String × α),
      (l.map Prod.fst).filter p = (l.filter (fun pr => p pr.1)).map Prod.fst := by
  intro l
  induction l with
  | nil => rfl
  | cons x xs ih =>
    rw [List.map_cons, List.filter_cons, List.filter_cons]
    by_cases hp : p x.1
    · rw [if_pos hp, if_pos hp, List.map_cons, ih]
    · rw [if_neg hp, if_neg hp, ih]

theorem ignored_fold_general (sv : List (String × Spec)) :
    ∀ (l : List String) (acc : List String), l.Nodup →
      (∀ n ∈ l, n ∉ acc) →
      l.foldl (fun ign name =>
        match sv.lookup name with
        | some spec => if spec.ignore then keyInsert ign name else ign
        | none => ign) acc =
      acc ++ l.filter (fun n =>
        match sv.lookup n with
        | some spec => spec.ignore
        | none => false) := by
  intro l
  induction l with
  | nil => intro acc _ _; rw [List.foldl_nil, List.filter_nil, List.append_nil]
  | cons x xs ih =>
    intro acc hnd hdis
    rw [List.foldl_cons, List.filter_cons]
    cases hl : sv.lookup x with
    | none =>
      dsimp only
      rw [if_neg (by exact Bool.false_ne_true)]
      exact ih acc (List.nodup_cons.mp hnd).2
        (fun n hn => hdis n (List.mem_cons_of_mem _ hn))
    | some spec =>
      dsimp only
      by_cases hig : spec.ignore = true
      · rw [if_pos hig, if_pos hig, keyInsert,
          if_neg (hdis x (List.mem_cons_self _ _))]
        have hdis' : ∀ n ∈ xs, n ∉ acc ++ [x] := by
          intro n hn hc
          rcases List.mem_append.mp hc with h1 | h2
          · exact hdis n (List.mem_cons_of_mem _ hn) h1
          · exact (List.nodup_cons.mp hnd).1
              ((List.mem_singleton.mp h2) ▸ hn)
        rw [ih (acc ++ [x]) (List.nodup_cons.mp hnd).2 hdis',
          List.append_assoc, List.singleton_append]
      · rw [if_neg hig, if_neg hig]
        exact ih acc (List.nodup_cons.mp hnd).2
          (fun n hn => hdis n (List.mem_cons_of_mem _ hn))

theorem keys_filter_ignored {sv : List (String × Spec)}
    (hnd : (keys sv).Nodup) :
    (keys sv).filter (fun n =>
      match sv.lookup n with
      | some spec => spec.ignore
      | none => false) = ignoredNames sv := by
  rw [keys, filter_map_fst, ignoredNames]
  have hcongr : sv.filter (fun pr =>
      match sv.lookup pr.1 with
      | some spec => spec.ignore
      | none => false) = sv.filter (fun p => p.2.ignore) := by
    refine List.filter_congr ?_
    intro pr hpr
    rw [lookup_of_mem_nodup hnd (by rw [← Prod.mk.eta (p := pr)] at hpr; exact hpr)]
  rw [hcongr]

theorem fillIgnored_init_ignored {cfg : Config}
    (hnd : (keys cfg.services).Nodup) :
    (fillIgnored (init cfg)).ignored = ignoredNames cfg.services := by
  have h1 : (fillIgnored (init cfg)).ignored =
      (keys cfg.services).foldl (fun ign name =>
        match cfg.services.lookup name with
        | some spec => if spec.ignore then keyInsert ign name else ign
        | none => ign) [] := rfl
  rw [h1, ignored_fold_general cfg.services (keys cfg.services) [] hnd
    (fun n _ => List.not_mem_nil n), List.nil_append, keys_filter_ignored hnd]

theorem foldl_spliceOut_eq_foldl_erase :
    ∀ (S l : List String), S.Nodup → S ⊆ l →
      S.foldl spliceOut l = S.foldl List.erase l := by
  intro S
  induction S with
  | nil => intro l _ _; rfl
  | cons n S' ih =>
    intro l hnd hsub
    have hn : n ∈ l := hsub (List.mem_cons_self _ _)
    rw [List.foldl_cons, List.foldl_cons, spliceOut_of_mem hn]
    refine ih (l.erase n) (List.nodup_cons.mp hnd).2 ?_
    intro m hm
    refine (List.mem_erase_of_ne (fun hc => ?_)).mpr
      (hsub (List.mem_cons_of_mem _ hm))
    exact (List.nodup_cons.mp hnd).1 (hc ▸ hm)

theorem foldl_erase_eq_filter :
    ∀ (S l : List String), l.Nodup →
      S.foldl List.erase l = l.filter (fun x => decide (x ∉ S)) := by
  intro S
  induction S with
  | nil =>
    intro l _
    rw [List.foldl_nil]
    have : l.filter (fun x => decide (x ∉ ([] : List String))) =
        l.filter (fun _ => true) :=
      List.filter_congr (fun x _ => decide_eq_true (List.not_mem_nil x))
    rw [this, List.filter_true]
  | cons n S' ih =>
    intro l hnd
    rw [List.foldl_cons, ih (l.erase n) (hnd.erase n),
      List.Nodup.erase_eq_filter hnd n, List.filter_filter]
    refine List.filter_congr ?_
    intro x hx
    by_cases h1 : x = n
    · subst h1; simp
    · by_cases h2 : x ∈ S' <;> simp [h1, h2, List.mem_cons]

theorem keys_filter_not_ignored {sv : List (String × Spec)}
    (hnd : (keys sv).Nodup) :
    (keys sv).filter (fun x => decide (x ∉ ignoredNames sv)) =
      nonIgnoredNames sv := by
  rw [keys, filter_map_fst, nonIgnoredNames]
  refine congrArg (List.map Prod.fst) (List.filter_congr ?_)
  intro pr hpr
  have hpr' : (pr.1, pr.2) ∈ sv := by
    rw [← Prod.mk.eta (p := pr)] at hpr; exact hpr
  rw [decide_eq_decide]
  constructor
  · intro hni
    by_cases hig : pr.2.ignore = true
    · exact absurd (mem_ignoredNames.mpr ⟨pr.2, hpr', hig⟩) hni
    · simpa using hig
  · intro hflag hmem
    rcases mem_ignoredNames.mp hmem with ⟨spec', hmem', hflag'⟩
    rw [keys_nodup_unique hnd hmem' hpr'] at hflag'
    rw [hflag'] at hflag
    exact hflag rfl

theorem ignoredNames_sublist (sv : List (String × Spec)) :
    (ignoredNames sv).Sublist (keys sv) :=
  List.Sublist.map Prod.fst (List.filter_sublist sv)

theorem preRound_awaiting {cfg : Config} (hnd : (keys cfg.services).Nodup) :
    (preRoundState cfg).awaiting = nonIgnoredNames cfg.services := by
  have h1 : (preRoundState cfg).awaiting =
      (fillIgnored (init cfg)).ignored.foldl spliceOut (keys cfg.services) := rfl
  rw [h1, fillIgnored_init_ignored hnd,
    foldl_spliceOut_eq_foldl_erase (ignoredNames cfg.services) (keys cfg.services)
      ((ignoredNames_sublist cfg.services).nodup hnd)
      (ignoredNames_sublist cfg.services).subset,
    foldl_erase_eq_filter (ignoredNames cfg.services) (keys cfg.services) hnd,
    keys_filter_not_ignored hnd]

theorem preRound_ignored {cfg : Config} (hnd : (keys cfg.services).Nodup) :
    (preRoundState cfg).ignored = ignoredNames cfg.services :=
  fillIgnored_init_ignored hnd

theorem nonIgnoredNames_sublist (sv : List (String × Spec)) :
    (nonIgnoredNames sv).Sublist (keys sv) :=
  List.Sublist.map Prod.fst (List.filter_sublist sv)

theorem goodrun_preRound {cfg : Config} (hnd : (keys cfg.services).Nodup)
    (hb : benignServices cfg.services = true)
    (hr : refsOkServices cfg.services = true) :
    GoodRun (preRoundState cfg) := by
  have hawait := preRound_awaiting hnd
  have hign := preRound_ignored hnd
  refine ⟨⟨hnd, ?_, ?_, ?_, ?_, ?_, ?_, ?_, ?_, ?_, ?_, ?_⟩,
    hb, hr, hign, ?_, ?_, ?_, ?_, ?_, ?_, ?_, ?_, rfl⟩
  · rw [hawait]; exact (nonIgnoredNames_sublist cfg.services).subset
  · rw [hawait]; exact (nonIgnoredNames_sublist cfg.services).nodup hnd
  · exact List.nil_subset _
  · exact List.nodup_nil
  · exact List.nil_subset _
  · exact List.nodup_nil
  · exact fun n _ => List.not_mem_nil n
  · exact fun n _ => List.not_mem_nil n
  · exact fun n h => absurd h (List.not_mem_nil n)
  · exact fun p h => absurd h (List.not_mem_nil p)
  · exact List.nodup_nil
  · intro n hn hc
    rw [hawait] at hn
    rw [hign] at hc
    rcases mem_nonIgnoredNames.mp hn with ⟨spec, hmem, hfalse⟩
    rcases mem_ignoredNames.mp hc with ⟨spec', hmem', htrue⟩
    rw [keys_nodup_unique hnd hmem' hmem] at htrue
    rw [htrue] at hfalse
    cases hfalse
  · exact fun n h => absurd h (List.not_mem_nil n)
  · exact fun n h => absurd h (List.not_mem_nil n)
  · intro n hk hnig
    left
    rw [hign] at hnig
    rw [hawait]
    rcases List.mem_map.mp hk with ⟨pr, hpr, hfst⟩
    have hmem : (n, pr.2) ∈ cfg.services := by
      rw [← hfst, Prod.mk.eta]; exact hpr
    refine mem_nonIgnoredNames.mpr ⟨pr.2, hmem, ?_⟩
    by_cases hig : pr.2.ignore = true
    · exact absurd (mem_ignoredNames.mpr ⟨pr.2, hmem, hig⟩) hnig
    · simpa using hig
  · exact List.Perm.refl _
  · exact fun p h => absurd h (List.not_mem_nil p)
  · exact fun p h => absurd h (List.not_mem_nil p)
  · intro n h
    rcases h with h | h
    · exact absurd h (List.not_mem_nil n)
    · exact absurd h (List.not_mem_nil n)

theorem benign_run :
    ∀ (k : Nat) (st : St) (rank : String → Nat), GoodRun st →
      RankOk rank st.services → st.pending ≠ [] → measure st ≤ k →
      ∃ K, (runSteps st K).outcome = some (.ok (runSteps st K).resolved) ∧
        (runSteps st K).pending = [] ∧
        (runSteps st K).services = st.services ∧
        (keys (runSteps st K).resolved).Nodup ∧
        (∀ x, x ∈ keys (runSteps st K).resolved ↔
          x ∈ nonIgnoredNames st.services) := by
  intro k
  induction k with
  | zero =>
    intro st rank hg hrk hpne hle
    exfalso
    have hs : st.starting = [] := by
      refine List.length_eq_zero.mp ?_
      have : measure st = st.awaiting.length + st.starting.length := rfl
      omega
    have hperm := hg.pendPerm
    rw [hs] at hperm
    exact hpne (List.map_eq_nil_iff.mp hperm.eq_nil)
  | succ k ih =>
    intro st rank hg hrk hpne hle
    rcases step_benign hg hrk hpne with
      ⟨h1, h2, h3, h4, h5, _⟩ | ⟨hg', hmeas, hpne', hserv⟩
    · refine ⟨1, ?_, ?_, ?_, ?_, ?_⟩
      · exact h1
      · exact h2
      · exact h3
      · exact h4
      · exact h5
    · have hrk' : RankOk rank (stepEventLoop st).services := by
        rw [hserv]; exact hrk
      obtain ⟨K, hK1, hK2, hK3, hK4, hK5⟩ :=
        ih (stepEventLoop st) rank hg' hrk' hpne' (by omega)
      refine ⟨K + 1, ?_, ?_, ?_, ?_, ?_⟩
      · rw [runSteps]; exact hK1
      · rw [runSteps]; exact hK2
      · rw [runSteps, hK3]; exact hserv
      · rw [runSteps]; exact hK4
      · rw [runSteps]
        intro x
        rw [hK5 x, hserv]

theorem benign_deps :
    ∀ (k : Nat) (st : St) (rank : String → Nat), GoodRun st →
      RankOk rank st.services → measure st ≤ k →
      ∀ j, depsBeforeStart (runSteps st j) := by
  intro k
  induction k with
  | zero =>
    intro st rank hg hrk hle j
    have hs : st.starting = [] := by
      refine List.length_eq_zero.mp ?_
      have : measure st = st.awaiting.length + st.starting.length := rfl
      omega
    have hpend : st.pending = [] := by
      have hperm := hg.pendPerm
      rw [hs] at hperm
      exact List.map_eq_nil_iff.mp hperm.eq_nil
    rw [runSteps_frozen hpend j]
    exact hg.orderInv
  | succ k ih =>
    intro st rank hg hrk hle j
    by_cases hpne : st.pending = []
    · rw [runSteps_frozen hpne j]
      exact hg.orderInv
    · cases j with
      | zero => exact hg.orderInv
      | succ j =>
        have hrun : runSteps st (j + 1) = runSteps (stepEventLoop st) j := rfl
        rcases step_benign hg hrk hpne with
          ⟨_, h2, _, _, _, h6⟩ | ⟨hg', hmeas, _, hserv⟩
        · rw [hrun, runSteps_frozen h2 j]
          exact h6
        · rw [hrun]
          exact ih (stepEventLoop st) rank hg'
            (by rw [hserv]; exact hrk) (by omega) j

/-- C1: for every configuration of synchronous, effect-free modules whose
declared names are distinct, whose dependency graph is acyclic (witnessed by
a rank function that drops across every declared dependency of a non-ignored
service), whose dependencies all reference declared, non-ignored services,
and which passes the reserved-name check, `execute()` hands a running state
to the event loop and the run settles successfully with a resolved mapping
holding exactly one entry per non-ignored declared service; moreover at every
point of the run, every service whose activation has been invoked had all of
its declared dependencies already present in `resolved`. -/
theorem c1_acyclic_resolves (cfg : Config) (rank : String → Nat)
    (hnd : (keys cfg.services).Nodup)
    (hb : benignServices cfg.services = true)
    (hr : refsOkServices cfg.services = true)
    (hrk : RankOk rank cfg.services)
    (hcc : checkConstraints (init cfg) = none) :
    ∃ st0, execute (init cfg) = .running st0 ∧
      ∃ K, (runSteps st0 K).outcome = some (.ok (runSteps st0 K).resolved) ∧
        (keys (runSteps st0 K).resolved).Nodup ∧
        (∀ x, x ∈ keys (runSteps st0 K).resolved ↔
          x ∈ nonIgnoredNames cfg.services) ∧
        (∀ j, depsBeforeStart (runSteps st0 j)) := by
  have hex : execute (init cfg) = .running (nextRound (preRoundState cfg)) := by
    rw [execute, if_neg (by exact Bool.false_ne_true), hcc]
    rfl
  have hgpre : GoodRun (preRoundState cfg) := goodrun_preRound hnd hb hr
  have hrkpre : RankOk rank (preRoundState cfg).services := hrk
  refine ⟨nextRound (preRoundState cfg), hex, ?_⟩
  rcases round_dispatch hgpre hrkpre with
    ⟨ha, hs, heq⟩ | ⟨S, hSne, hsub, hndS, hready, heq⟩ | ⟨hsne, heq⟩
  · have hpend0 : (nextRound (preRoundState cfg)).pending = [] := by
      rw [heq, resolveOutcome_eq_withOutcome, withOutcome_pending]
      rfl
    have hstart0 : (nextRound (preRoundState cfg)).starting = [] := by
      rw [heq, resolveOutcome_eq_withOutcome, withOutcome_starting]
      exact hs
    have hres0 : (nextRound (preRoundState cfg)).resolved = [] := by
      rw [heq, resolveOutcome_eq_withOutcome, withOutcome_resolved]
      rfl
    have hfrozen := runSteps_frozen hpend0
    have hni : nonIgnoredNames cfg.services = [] := by
      rw [← preRound_awaiting hnd]
      exact ha
    refine ⟨0, ?_, ?_, ?_, ?_⟩
    · rw [hfrozen 0, heq]
      exact resolveOutcome_ok_of_none rfl
    · rw [hfrozen 0, hres0]
      exact List.nodup_nil
    · intro x
      rw [hfrozen 0, hres0, hni]
      exact Iff.rfl
    · intro j
      rw [hfrozen j]
      intro n h
      rcases h with h | h
      · rw [hstart0] at h
        exact absurd h (List.not_mem_nil n)
      · rw [hres0] at h
        exact absurd h (List.not_mem_nil n)
  · have hinv : Inv (roundAdvance (preRoundState cfg) S) :=
      heq ▸ nextRound_inv hgpre.inv
    have hg0 : GoodRun (roundAdvance (preRoundState cfg) S) :=
      goodrun_roundAdvance hgpre hsub hndS hready hinv
    have hpne0 : (roundAdvance (preRoundState cfg) S).pending ≠ [] := by
      intro hc
      rcases List.append_eq_nil.mp hc with ⟨_, hmap⟩
      exact hSne (List.map_eq_nil_iff.mp hmap)
    have hrk0 : RankOk rank (roundAdvance (preRoundState cfg) S).services := hrk
    obtain ⟨K, hK1, hK2, hK3, hK4, hK5⟩ :=
      benign_run (measure (roundAdvance (preRoundState cfg) S))
        (roundAdvance (preRoundState cfg) S) rank hg0 hrk0 hpne0 (Nat.le_refl _)
    rw [heq]
    refine ⟨K, hK1, hK4, ?_, ?_⟩
    · exact hK5
    · intro j
      exact benign_deps (measure (roundAdvance (preRoundState cfg) S))
        (roundAdvance (preRoundState cfg) S) rank hg0 hrk0 (Nat.le_refl _) j
  · exact absurd rfl hsne

/-- Witness: scenario A — `serviceA` depending on `serviceB`, both synchronous
— satisfies every hypothesis of the C1 theorem, with the rank function that
gives `serviceA` rank 1 and everything else rank 0. -/
theorem c1_acyclic_resolves_witness :
    ∃ st0, execute (init cfgA) = .running st0 ∧
      ∃ K, (runSteps st0 K).outcome = some (.ok (runSteps st0 K).resolved) ∧
        (keys (runSteps st0 K).resolved).Nodup ∧
        (∀ x, x ∈ keys (runSteps st0 K).resolved ↔
          x ∈ nonIgnoredNames cfgA.services) ∧
        (∀ j, depsBeforeStart (runSteps st0 j)) :=
  c1_acyclic_resolves cfgA (fun n => if n = "serviceA" then 1 else 0)
    (by decide) (by decide) (by decide) (by unfold RankOk; decide) (by decide)
